import Mathlib

set_option maxRecDepth 8192
/-!
Verification of the OTA image codec and repackaging pipeline of the
nebula-pad-firmware-customizer repository.

The development shallowly embeds the Python core:
* `main.py::__split_rooted_fs`   — chunking with chained MD5 filenames,
* `main.py::__assemble_rootfs`   — glob + lexicographic sort + concatenation,
* `utils/otatools.py::OtaTools.parse_ota_update_in` / `write_ota_update_in`,
* `utils/prepareroot.py::PrepareRoot.__set_password`.

Byte files are `List Nat`, text is `List Char`.  The MD5 digest itself is an
external library call (`hashlib.md5(...).hexdigest()`); it is modelled as an
arbitrary function `md5 : List Nat → List Char`, so every theorem quantifying
over `md5` holds in particular for the real MD5 hex digest.  Python string
primitives used by the source (`str.split` = `List.splitOn`, `str.splitlines`,
`str.strip`, `str.removeprefix`, `str.startswith`, ordered `dict` insertion)
are embedded mirroring the CPython semantics on the inputs the tool
manipulates (texts whose only line terminator is `'\n'`).
-/

/-! ## Definitions -/

/-- Model of Python `s.split("\n\n")`: splits on each non-overlapping
occurrence of two consecutive newline characters, scanning left to right.
Pieces at the ends and between adjacent separators are empty strings,
exactly as in CPython `str.split` with an explicit separator. -/
def splitBlank : List Char → List (List Char)
  | [] => [[]]
  | [c] => [[c]]
  | c1 :: c2 :: cs =>
    if c1 = '\n' ∧ c2 = '\n' then [] :: splitBlank cs
    else
      let r := splitBlank (c2 :: cs)
      (c1 :: r.headD []) :: r.tail

/-- Model of Python `s.splitlines()` for text whose only line terminator is
`'\n'`: split on `'\n'` and drop the final empty piece (so a trailing
newline does not produce an extra empty line, and `"".splitlines() = []`). -/
def pySplitlines (s : List Char) : List (List Char) :=
  let r := s.splitOn '\n'
  if r.getLastD [] = [] then r.dropLast else r

/-- Characters removed by Python `str.strip()`: exactly the 29 code points
for which CPython's `str.isspace()` holds (`0x09`–`0x0d`, `0x1c`–`0x1f`,
space, `0x85`, `0xa0`, `0x1680`, `0x2000`–`0x200a`, `0x2028`, `0x2029`,
`0x202f`, `0x205f`, `0x3000`). -/
def pyWs (c : Char) : Bool :=
  c = ' ' || c = '\t' || c = '\n' || c = '\r' || c = '\x0b' ||
  c = '\x0c' || c = '\x1c' || c = '\x1d' || c = '\x1e' || c = '\x1f' ||
  c = '\x85' || c = '\xa0' || c = '\u1680' || c = '\u2000' || c = '\u2001' ||
  c = '\u2002' || c = '\u2003' || c = '\u2004' || c = '\u2005' || c = '\u2006' ||
  c = '\u2007' || c = '\u2008' || c = '\u2009' || c = '\u200a' || c = '\u2028' ||
  c = '\u2029' || c = '\u202f' || c = '\u205f' || c = '\u3000'

/-- Model of Python `s.strip()`: remove leading and trailing whitespace. -/
def pyStrip (s : List Char) : List Char :=
  ((s.dropWhile pyWs).reverse.dropWhile pyWs).reverse

/-- Model of Python `s.removeprefix(p)`: drop `p` from the front when it is
a starting segment of `s`, otherwise return `s` unchanged. -/
def pyRemovePre (p s : List Char) : List Char :=
  if p.isPrefixOf s then s.drop p.length else s

/-- Association list standing for a Python `dict` (keys in insertion
order). -/
abbrev PyDict (α β : Type) := List (α × β)

/-- Model of Python `d[k] = v`: if `k` is present, replace its value keeping
its original position; otherwise append `(k, v)` at the end.  This is
exactly CPython's insertion-ordered `dict` assignment. -/
def pyInsert [DecidableEq α] (d : PyDict α β) (k : α) (v : β) : PyDict α β :=
  if d.any (fun kv => kv.1 = k) then
    d.map (fun kv => if kv.1 = k then (k, v) else kv)
  else
    d ++ [(k, v)]

/-- Model of Python `d[k]` lookup: `none` models a `KeyError`. -/
def pyLookup [DecidableEq α] (d : PyDict α β) (k : α) : Option β :=
  (d.find? (fun kv => kv.1 = k)).map (fun kv => kv.2)

/-- Strict lexicographic comparison of character lists by Unicode code
point, exactly the order Python uses to compare `str` (and, for paths in a
common directory, `pathlib.Path`) values. -/
def listLtB : List Char → List Char → Bool
  | [], [] => false
  | [], _ :: _ => true
  | _ :: _, [] => false
  | a :: as, b :: bs => if a < b then true else if b < a then false else listLtB as bs

/-- Non-strict comparison (`a ≤ b` iff `¬ b < a`), the effective key order
of Python's `list.sort()`. -/
def nameLe (a b : List Char) : Bool := !(listLtB b a)

/-- Decimal digits of a natural number, most significant first (the digits
Python's `str(n)` / `format` produce). -/
def decDigits (n : Nat) : List Nat :=
  if n < 10 then [n] else decDigits (n / 10) ++ [n % 10]
decreasing_by exact Nat.div_lt_self (by omega) (by omega)

/-- Character for one decimal digit (values 0–9 map to `'0'`–`'9'`). -/
def digitChar (d : Nat) : Char := Char.ofNat (48 + d)

/-- Model of the Python format `f"{n:04d}"`: the decimal digits of `n`,
zero-padded on the left to at least four characters. -/
def pad4 (n : Nat) : List Char :=
  List.replicate (4 - (decDigits n).length) '0' ++ (decDigits n).map digitChar

/-- The chunk size hard-coded in `__split_rooted_fs` (1 MiB). -/
def chunkSize : Nat := 1048576

/-- Filename of chunk number `i`, carrying digest string `d`:
`f"rootfs.squashfs.{chunk_number:04d}.{prior_md5}"`. -/
def chunkName (i : Nat) (d : List Char) : List Char :=
  ("rootfs.squashfs.".data) ++ pad4 i ++ '.' :: d

/-- Fuel-indexed version of the read-loop of `__split_rooted_fs`: repeatedly
take `chunkSize` bytes until the file is exhausted.  Any `fuel ≥` the length
of the input gives the loop's behaviour, since every iteration consumes at
least one byte. -/
def splitChunksAux : Nat → List Nat → List (List Nat)
  | _, [] => []
  | 0, _ => []
  | fuel + 1, bs => bs.take chunkSize :: splitChunksAux fuel (bs.drop chunkSize)

/-- The successive chunks read by the `while True` loop of
`__split_rooted_fs`: `chunkSize`-byte windows, the final one shorter. -/
def splitChunks (bs : List Nat) : List (List Nat) :=
  splitChunksAux bs.length bs

/-- The loop of `__split_rooted_fs` producing the chunk files: chunk `i` is
written under a name carrying `prior_md5`, which starts as the digest of the
whole image and is then each chunk's own digest for its successor. -/
def chunkFilesGo (md5 : List Nat → List Char) :
    Nat → List Char → List (List Nat) → List (List Char × List Nat)
  | _, _, [] => []
  | i, prior, c :: cs => (chunkName i prior, c) :: chunkFilesGo md5 (i + 1) (md5 c) cs

/-- The chunk files (filename, contents) produced by `__split_rooted_fs`
for an image, given the digest function. -/
def splitFiles (md5 : List Nat → List Char) (img : List Nat) : List (List Char × List Nat) :=
  chunkFilesGo md5 0 (md5 img) (splitChunks img)

/-- The lines of the `ota_md5_rootfs.squashfs.<digest>` file written by
`__split_rooted_fs`: each chunk's own digest, in chunk order. -/
def digestChain (md5 : List Nat → List Char) (img : List Nat) : List (List Char) :=
  (splitChunks img).map md5

/-- Model of the `pathlib` glob pattern `rootfs.squashfs.*.*` used by
`__assemble_rootfs`: the name starts with `rootfs.squashfs.` and the
remainder contains a further dot. -/
def globMatches (name : List Char) : Bool :=
  ("rootfs.squashfs.".data).isPrefixOf name &&
    (name.drop (("rootfs.squashfs.".data).length)).contains '.'

/-- Embedding of `__assemble_rootfs`: glob the directory for chunk files,
sort the matches by full name (Python's `list.sort()` on paths of a common
directory is a stable sort by the lexicographic string order), and
concatenate their contents.  The directory is a list of (name, contents)
files; the function performs no validation whatsoever. -/
def assembleChunks (dir : List (List Char × List Nat)) : List Nat :=
  ((((dir.filter (fun f => globMatches f.1)).mergeSort
      (fun a b => nameLe a.1 b.1)).map (fun f => f.2))).flatten

/-- The fixed key prefix stripped by `entry[0].removeprefix("img_")`. -/
def imgPre : List Char := "img_".data

/-- One iteration of the inner loop of `parse_ota_update_in`:
`entry = line.split("="); section[entry[0].removeprefix("img_")] = entry[1]`.
A line without `=` makes `entry[1]` raise `IndexError`, modelled as
`none`. -/
def addLine (d : PyDict (List Char) (List Char)) (line : List Char) :
    Option (PyDict (List Char) (List Char)) :=
  match line.splitOn '=' with
  | k :: v :: _ => some (pyInsert d (pyRemovePre imgPre k) v)
  | _ => none

/-- The dictionary built from one multi-line section of `ota_update.in`. -/
def buildSection (contents : List (List Char)) :
    Option (PyDict (List Char) (List Char)) :=
  contents.foldlM addLine []

/-- The nested-dict result type of `parse_ota_update_in`. -/
abbrev Sections := PyDict (List Char) (PyDict (List Char) (List Char))

/-- Embedding of `OtaTools.parse_ota_update_in`: strip the text, split it
into blank-line-separated sections, and turn every section of more than one
line into a dictionary keyed by its `type` entry.  `none` models the
uncaught `IndexError`/`KeyError` a malformed section raises. -/
def parseSection (parsed : Sections) (sec : List Char) : Option Sections :=
  let contents := pySplitlines sec
  if 1 < contents.length then do
    let d ← buildSection contents
    let t ← pyLookup d ("type".data)
    pure (pyInsert parsed t d)
  else
    pure parsed

/-- Embedding of `OtaTools.parse_ota_update_in`: strip the text, split it
into blank-line-separated sections, and fold `parseSection` over them. -/
def parse_ota_update_in (text : List Char) : Option Sections :=
  (splitBlank (pyStrip text)).foldlM parseSection []

/-- The text `write_ota_update_in` emits for one partition section, reading
the four fields out of the section's dictionary (a missing field raises
`KeyError`, modelled as `none`). -/
def lineOf (key v : List Char) : List Char := key ++ '=' :: v

/-- The four `img_` lines of one partition section, joined by newlines,
without the trailing blank line. -/
def sectionCore (t n s m : List Char) : List Char :=
  lineOf ("img_type".data) t ++ '\n' ::
    (lineOf ("img_name".data) n ++ '\n' ::
      (lineOf ("img_size".data) s ++ '\n' :: lineOf ("img_md5".data) m))

/-- The canonical dictionary `parse_ota_update_in` builds for one section:
keys `type`, `name`, `size`, `md5` in insertion order. -/
def entryDict (t n s m : List Char) : PyDict (List Char) (List Char) :=
  [(("type".data), t), (("name".data), n), (("size".data), s), (("md5".data), m)]

/-- The section text `write_ota_update_in` derives from one section
dictionary. -/
def coreOf (d : PyDict (List Char) (List Char)) : List Char :=
  sectionCore ((pyLookup d ("type".data)).getD []) ((pyLookup d ("name".data)).getD [])
    ((pyLookup d ("size".data)).getD []) ((pyLookup d ("md5".data)).getD [])

def writeEntry (d : PyDict (List Char) (List Char)) : Option (List Char) := do
  let t ← pyLookup d ("type".data)
  let n ← pyLookup d ("name".data)
  let s ← pyLookup d ("size".data)
  let m ← pyLookup d ("md5".data)
  pure (sectionCore t n s m ++ ['\n', '\n'])

/-- Embedding of `OtaTools.write_ota_update_in`: the `ota_version` line, a
blank line, then each section in iteration order.  Iterating the entries of
the association list mirrors Python's `for section in ota_info:` followed by
`ota_info[section][...]` on a `dict`, whose keys are unique. -/
def write_ota_update_in (version : List Char) (info : Sections) : Option (List Char) := do
  let body ← info.foldlM (fun acc kv => do
      let e ← writeEntry kv.2
      pure (acc ++ e)) ([] : List Char)
  pure (("ota_version=".data) ++ version ++ '\n' :: '\n' :: body)

/-- The lines of a text as Python file iteration yields them: every line
keeps its trailing `'\n'`; the final line may lack one; empty text has no
lines. -/
def linesKeep (s : List Char) : List (List Char) :=
  let parts := s.splitOn '\n'
  let withNl := parts.dropLast.map (fun p => p ++ ['\n'])
  if parts.getLastD [] = [] then withNl else withNl ++ [parts.getLastD []]

/-- The test `line.startswith("root")` of `__set_password`. -/
def rootPre : List Char := "root".data

/-- One loop iteration of `__set_password`: a line starting with `root` has
`auth_parts[1]` replaced by the supplied hash and is re-joined with `":"`;
other lines are printed unchanged.  On a matching line with no `:` the
assignment `auth_parts[1] = ...` raises `IndexError`, modelled as `none`. -/
def passwordLine (pwh line : List Char) : Option (List Char) :=
  if rootPre.isPrefixOf line then
    let parts := line.splitOn ':'
    if 2 ≤ parts.length then some (List.intercalate [':'] (parts.set 1 pwh))
    else none
  else some line

/-- Embedding of `PrepareRoot.__set_password`: rewrite the shadow file by
mapping `passwordLine` over its lines and concatenating the results. -/
def set_password (pwh content : List Char) : Option (List Char) := do
  let outs ← (linesKeep content).mapM (passwordLine pwh)
  pure outs.flatten


/-- Number of chunks the split loop produces: `⌈length / chunkSize⌉`. -/
def numChunks (bs : List Nat) : Nat := (bs.length + (chunkSize - 1)) / chunkSize

/-- The `k`-th window the split loop reads. -/
def chunkAt (bs : List Nat) (k : Nat) : List Nat :=
  (bs.drop (k * chunkSize)).take chunkSize

/-- The digest carried by the `k`-th chunk filename: the whole-image digest
for `k = 0`, chunk `k-1`'s own digest otherwise. -/
def chainDigest (md5 : List Nat → List Char) (bs : List Nat) (k : Nat) : List Char :=
  if k = 0 then md5 bs else md5 (chunkAt bs (k - 1))

/-- The digest embedded in a chunk filename: the component after the last
dot. -/
def nameDigest (name : List Char) : List Char :=
  (name.splitOn '.').getLastD []

/-- Characters a lowercase hexadecimal digest consists of. -/
def isHexChar (c : Char) : Bool := ("0123456789abcdef".data).contains c



/-- Concrete digest function used by witnesses: a constant 32-character
lowercase-hex string. -/
def md5W : List Nat → List Char := fun _ => List.replicate 32 'a'

/-- Concrete two-chunk image used by witnesses: one byte more than a chunk. -/
def imgW : List Nat := List.replicate (chunkSize + 1) 0

/-- Block `k` of the counterexample image: one full chunk of bytes `k mod
256`. -/
def blkW (k : Nat) : List Nat := List.replicate chunkSize (k % 256)

/-- A 10001-chunk image (10001 MiB): chunk `k` holds bytes `k mod 256`. -/
def imgBig : List Nat := ((List.range 10001).map blkW).flatten

/-- The chunk file of index `k` produced when splitting `imgBig`. -/
def chunkFileBig (md5 : List Nat → List Char) (k : Nat) : List Char × List Nat :=
  (chunkName k (chainDigest md5 imgBig k), blkW k)

/-- Characters a well-formed manifest field may contain: anything except
the key-value separator `=` and the line terminators Python
`str.splitlines` recognises. -/
def goodChar (c : Char) : Bool :=
  !(c = '=' || c = '\n' || c = '\r' || c = '\x0b' || c = '\x0c' ||
    c = '\x1c' || c = '\x1d' || c = '\x1e' || c = '\x85' ||
    c = '\u2028' || c = '\u2029')

/-- A well-formed manifest field value: only plain characters, and not
ending in `str.strip` whitespace (the stripping of the whole file would
otherwise eat trailing whitespace of the final `img_md5` value).  The empty
string is a good field. -/
def goodField (v : List Char) : Prop :=
  (∀ c ∈ v, goodChar c = true) ∧ pyWs (v.getLastD 'a') = false

/-- A well-formed parsed section entry: outer key equals the `type` field
and the dictionary is exactly the canonical one `parse_ota_update_in`
produces, with well-formed field values. -/
def entryOk (td : (List Char) × PyDict (List Char) (List Char)) : Prop :=
  ∃ t n s m, td = (t, entryDict t n s m) ∧
    goodField t ∧ goodField n ∧ goodField s ∧ goodField m

/-- A well-formed Manifest: every entry canonical and partition types
pairwise distinct (as in a Python `dict`). -/
def wfManifest (info : Sections) : Prop :=
  (∀ td ∈ info, entryOk td) ∧ (info.map (fun td => td.1)).Nodup

/-- No two consecutive newline characters: such a string is a single piece
for the blank-line splitter. -/
def noBlankPair (l : List Char) : Prop :=
  l.Chain' (fun a b => ¬(a = '\n' ∧ b = '\n'))

/-- The rewrite `__set_password` applies to one shadow line, as a total
function: a line the code matches (`line.startswith("root")`) has field 1 of
its `':'`-split replaced by the supplied hash and is re-joined with `':'`;
any other line is returned verbatim. -/
def pwTransform (pwh line : List Char) : List Char :=
  if rootPre.isPrefixOf line then List.intercalate [':'] ((line.splitOn ':').set 1 pwh)
  else line

/-- A chunk directory with a gap in the index sequence: chunk files with
indices `0000` and `0002` are present, index `0001` is missing. -/
def dirGap : List (List Char × List Nat) :=
  [(("rootfs.squashfs.0000.aa".data), [1]), (("rootfs.squashfs.0002.aa".data), [3])]

/-- A chunk directory with a duplicate index: two distinct files both carry
index `0000` (their digest suffixes differ). -/
def dirDup : List (List Char × List Nat) :=
  [(("rootfs.squashfs.0000.aa".data), [1]), (("rootfs.squashfs.0000.bb".data), [2])]

/-- A concrete two-line shadow file with a `root` line. -/
def shadowW : List Char := "root:x:19000:0:99999:7:::\nbin:y:1::\n".data

/-- A concrete colon-free password hash. -/
def pwhW : List Char := "NEWHASH".data

/-! ## Theorems -/

theorem splitOn_push (sep : Char) (k rest : List Char) (hk : sep ∉ k) :
    (k ++ sep :: rest).splitOn sep = k :: rest.splitOn sep := by
  apply List.splitOnP_first
  · intro x hx
    simp only [beq_iff_eq]
    exact fun h => hk (h ▸ hx)
  · simp

theorem splitOn_single (sep : Char) (s : List Char) (h : sep ∉ s) :
    s.splitOn sep = [s] := by
  apply List.splitOnP_eq_single
  intro x hx
  simp only [beq_iff_eq]
  exact fun he => h (he ▸ hx)

theorem splitOn_sep_not_mem (sep : Char) (s : List Char) :
    ∀ p ∈ s.splitOn sep, sep ∉ p := by
  induction s with
  | nil => simp [List.splitOn_nil]
  | cons c cs ih =>
    rw [List.splitOn, List.splitOnP_cons]
    by_cases hc : c = sep
    · rw [if_pos (by simpa using hc)]
      intro p hp
      rw [List.mem_cons] at hp
      rcases hp with hp | hp
      · simp [hp]
      · exact ih p hp
    · rw [if_neg (by simpa using hc)]
      rcases hr : cs.splitOn sep with _ | ⟨q, qs⟩
      · exact absurd hr (List.splitOnP_ne_nil _ cs)
      · rw [List.splitOn] at hr
        rw [hr, List.modifyHead_cons]
        intro p hp
        rw [List.mem_cons] at hp
        rcases hp with hp | hp
        · subst hp
          have hq : sep ∉ q := ih q (by rw [List.splitOn, hr]; exact List.mem_cons_self q qs)
          intro hmem
          rw [List.mem_cons] at hmem
          rcases hmem with h1 | h1
          · exact hc h1.symm
          · exact hq h1
        · exact ih p (by rw [List.splitOn, hr]; exact List.mem_cons_of_mem q hp)

theorem listLtB_irrefl (a : List Char) : listLtB a a = false := by
  induction a with
  | nil => rfl
  | cons c cs ih => simp [listLtB, lt_irrefl, ih]

theorem listLtB_asymm : ∀ {a b : List Char}, listLtB a b = true → listLtB b a = false
  | [], [], h => by simp [listLtB] at h
  | [], _ :: _, _ => rfl
  | _ :: _, [], h => by simp [listLtB] at h
  | a :: as, b :: bs, h => by
    simp only [listLtB] at h ⊢
    rcases lt_trichotomy a b with hab | hab | hab
    · rw [if_neg (asymm hab), if_pos hab]
    · subst hab
      rw [if_neg (lt_irrefl a)] at h ⊢
      rw [if_neg (lt_irrefl a)] at h ⊢
      exact listLtB_asymm h
    · rw [if_neg (asymm hab), if_pos hab] at h
      exact absurd h (by simp)

theorem listLtB_eq_of_both_false : ∀ {a b : List Char},
    listLtB a b = false → listLtB b a = false → a = b
  | [], [], _, _ => rfl
  | [], _ :: _, h, _ => by simp [listLtB] at h
  | _ :: _, [], _, h => by simp [listLtB] at h
  | a :: as, b :: bs, h1, h2 => by
    simp only [listLtB] at h1 h2
    rcases lt_trichotomy a b with hab | hab | hab
    · rw [if_pos hab] at h1; exact absurd h1 (by simp)
    · subst hab
      rw [if_neg (lt_irrefl a), if_neg (lt_irrefl a)] at h1 h2
      rw [listLtB_eq_of_both_false h1 h2]
    · rw [if_pos hab] at h2; exact absurd h2 (by simp)

theorem listLtB_trans : ∀ {a b c : List Char},
    listLtB a b = true → listLtB b c = true → listLtB a c = true
  | [], _, _ :: _, _, _ => rfl
  | [], b, [], _, h => by
    cases b <;> simp [listLtB] at h
  | _ :: _, b, [], h1, h2 => by
    cases b <;> simp [listLtB] at h1 h2
  | a :: as, b, c :: cs, h1, h2 => by
    match b with
    | [] => simp [listLtB] at h1
    | b :: bs =>
      simp only [listLtB] at h1 h2 ⊢
      rcases lt_trichotomy a b with hab | hab | hab
      · rcases lt_trichotomy b c with hbc | hbc | hbc
        · rw [if_pos (lt_trans hab hbc)]
        · subst hbc; rw [if_pos hab]
        · rw [if_neg (asymm hbc), if_pos hbc] at h2
          exact absurd h2 (by simp)
      · subst hab
        rw [if_neg (lt_irrefl a), if_neg (lt_irrefl a)] at h1
        rcases lt_trichotomy a c with hbc | hbc | hbc
        · rw [if_pos hbc]
        · subst hbc
          rw [if_neg (lt_irrefl a), if_neg (lt_irrefl a)] at h2 ⊢
          exact listLtB_trans h1 h2
        · rw [if_neg (asymm hbc), if_pos hbc] at h2
          exact absurd h2 (by simp)
      · rw [if_neg (asymm hab), if_pos hab] at h1
        exact absurd h1 (by simp)

theorem nameLe_refl (a : List Char) : nameLe a a = true := by
  simp [nameLe, listLtB_irrefl]

theorem nameLe_total (a b : List Char) : (nameLe a b || nameLe b a) = true := by
  simp only [nameLe, Bool.or_eq_true, Bool.not_eq_true']
  by_cases h : listLtB b a = true
  · exact Or.inr (listLtB_asymm h)
  · exact Or.inl (by simpa using h)

theorem nameLe_trans {a b c : List Char} (h1 : nameLe a b = true) (h2 : nameLe b c = true) :
    nameLe a c = true := by
  simp only [nameLe, Bool.not_eq_true'] at h1 h2 ⊢
  by_contra h
  rw [Bool.not_eq_false] at h
  by_cases hbc : listLtB b c = true
  · exact absurd (listLtB_trans hbc h) (by simp [h1])
  · have hBC : b = c := listLtB_eq_of_both_false (by simpa using hbc) h2
    subst hBC
    exact absurd h (by simp [h1])

theorem nameLe_of_ltB {a b : List Char} (h : listLtB a b = true) : nameLe a b = true := by
  simp [nameLe, listLtB_asymm h]

theorem listLtB_append_left (p : List Char) (x y : List Char) :
    listLtB (p ++ x) (p ++ y) = listLtB x y := by
  induction p with
  | nil => rfl
  | cons c cs ih => simp [listLtB, lt_irrefl, ih]

theorem listLtB_cons_of_lt {a b : Char} (h : a < b) (x y : List Char) :
    listLtB (a :: x) (b :: y) = true := by
  simp [listLtB, if_pos h]

theorem listLtB_append_strict : ∀ {p q : List Char}, listLtB p q = true →
    p.length = q.length → ∀ (x y : List Char), listLtB (p ++ x) (q ++ y) = true
  | [], [], h, _, _, _ => by simp [listLtB] at h
  | [], _ :: _, _, hl, _, _ => by simp at hl
  | _ :: _, [], _, hl, _, _ => by simp at hl
  | a :: as, b :: bs, h, hl, x, y => by
    simp only [listLtB] at h
    simp only [List.cons_append, listLtB]
    rcases lt_trichotomy a b with hab | hab | hab
    · rw [if_pos hab]
    · subst hab
      rw [if_neg (lt_irrefl a)] at h ⊢
      rw [if_neg (lt_irrefl a)] at h ⊢
      exact listLtB_append_strict h (by simpa using hl) x y
    · rw [if_neg (asymm hab), if_pos hab] at h
      exact absurd h (by simp)

theorem decDigits_lt10 {n : Nat} (h : n < 10) : decDigits n = [n] := by
  rw [decDigits, if_pos h]

theorem decDigits_lt100 {n : Nat} (h1 : 10 ≤ n) (h2 : n < 100) :
    decDigits n = [n / 10, n % 10] := by
  rw [decDigits, if_neg (by omega)]
  rw [decDigits_lt10 (by omega)]
  rfl

theorem decDigits_lt1000 {n : Nat} (h1 : 100 ≤ n) (h2 : n < 1000) :
    decDigits n = [n / 100, n / 10 % 10, n % 10] := by
  rw [decDigits, if_neg (by omega)]
  rw [decDigits_lt100 (by omega) (by omega)]
  have e1 : n / 10 / 10 = n / 100 := by omega
  have e2 : n / 10 % 10 = n / 10 % 10 := rfl
  rw [e1]
  rfl

theorem decDigits_lt10000 {n : Nat} (h1 : 1000 ≤ n) (h2 : n < 10000) :
    decDigits n = [n / 1000, n / 100 % 10, n / 10 % 10, n % 10] := by
  rw [decDigits, if_neg (by omega)]
  rw [decDigits_lt1000 (by omega) (by omega)]
  have e1 : n / 10 / 100 = n / 1000 := by omega
  have e2 : n / 10 / 10 % 10 = n / 100 % 10 := by omega
  have e3 : n / 10 % 10 = n / 10 % 10 := rfl
  rw [e1, e2]
  rfl

theorem pad4_eq_of_lt {n : Nat} (h : n < 10000) :
    pad4 n = [digitChar (n / 1000), digitChar (n / 100 % 10),
              digitChar (n / 10 % 10), digitChar (n % 10)] := by
  have h0 : digitChar 0 = '0' := by decide
  rcases Nat.lt_or_ge n 10 with h1 | h1
  · rw [pad4, decDigits_lt10 h1]
    have e1 : n / 1000 = 0 := by omega
    have e2 : n / 100 % 10 = 0 := by omega
    have e3 : n / 10 % 10 = 0 := by omega
    have e4 : n % 10 = n := by omega
    rw [e1, e2, e3, e4, h0]
    rfl
  · rcases Nat.lt_or_ge n 100 with h2 | h2
    · rw [pad4, decDigits_lt100 h1 h2]
      have e1 : n / 1000 = 0 := by omega
      have e2 : n / 100 % 10 = 0 := by omega
      have e3 : n / 10 % 10 = n / 10 := by omega
      rw [e1, e2, e3, h0]
      rfl
    · rcases Nat.lt_or_ge n 1000 with h3 | h3
      · rw [pad4, decDigits_lt1000 h2 h3]
        have e1 : n / 1000 = 0 := by omega
        have e2 : n / 100 % 10 = n / 100 := by omega
        rw [e1, e2, h0]
        rfl
      · rw [pad4, decDigits_lt10000 h3 h]
        rfl

theorem digitChar_lt_digitChar : ∀ a < 10, ∀ b < 10, a < b → digitChar a < digitChar b := by
  decide

theorem listLtB_cons_self (c : Char) (x y : List Char) :
    listLtB (c :: x) (c :: y) = listLtB x y := by
  simp [listLtB, lt_irrefl]

theorem pad4_ltB {i j : Nat} (hij : i < j) (hj : j < 10000) :
    listLtB (pad4 i) (pad4 j) = true := by
  rw [pad4_eq_of_lt (by omega), pad4_eq_of_lt hj]
  rcases Nat.lt_trichotomy (i / 1000) (j / 1000) with h3 | h3 | h3
  · exact listLtB_cons_of_lt (digitChar_lt_digitChar _ (by omega) _ (by omega) h3) _ _
  · rw [h3, listLtB_cons_self]
    rcases Nat.lt_trichotomy (i / 100 % 10) (j / 100 % 10) with h2 | h2 | h2
    · exact listLtB_cons_of_lt (digitChar_lt_digitChar _ (by omega) _ (by omega) h2) _ _
    · rw [h2, listLtB_cons_self]
      rcases Nat.lt_trichotomy (i / 10 % 10) (j / 10 % 10) with h1 | h1 | h1
      · exact listLtB_cons_of_lt (digitChar_lt_digitChar _ (by omega) _ (by omega) h1) _ _
      · rw [h1, listLtB_cons_self]
        rcases Nat.lt_trichotomy (i % 10) (j % 10) with h0 | h0 | h0
        · exact listLtB_cons_of_lt (digitChar_lt_digitChar _ (by omega) _ (by omega) h0) _ _
        · exfalso; omega
        · exfalso; omega
      · exfalso; omega
    · exfalso; omega
  · exfalso; omega

theorem chunkName_ltB {i j : Nat} (hij : i < j) (hj : j < 10000) (d e : List Char) :
    listLtB (chunkName i d) (chunkName j e) = true := by
  rw [chunkName, chunkName, List.append_assoc, List.append_assoc, listLtB_append_left]
  have hi4 : (pad4 i).length = 4 := by rw [pad4_eq_of_lt (by omega)]; rfl
  have hj4 : (pad4 j).length = 4 := by rw [pad4_eq_of_lt hj]; rfl
  exact listLtB_append_strict (pad4_ltB hij hj) (by rw [hi4, hj4]) _ _

/-! Characterisation of the split loop. -/

theorem splitChunksAux_nil (fuel : Nat) : splitChunksAux fuel [] = [] := by
  cases fuel <;> rfl

theorem splitChunksAux_cons (fuel b : Nat) (bs : List Nat) :
    splitChunksAux (fuel + 1) (b :: bs) =
      (b :: bs).take chunkSize :: splitChunksAux fuel ((b :: bs).drop chunkSize) := rfl

theorem splitChunksAux_eq : ∀ (fuel : Nat) (bs : List Nat), bs.length ≤ fuel →
    splitChunksAux fuel bs = (List.range (numChunks bs)).map (chunkAt bs)
  | 0, bs, h => by
    have hb : bs = [] := List.length_eq_zero.1 (by omega)
    subst hb
    simp [splitChunksAux_nil, numChunks, chunkSize]
  | fuel + 1, [], _ => by
    simp [splitChunksAux_nil, numChunks, chunkSize]
  | fuel + 1, b :: bs, h => by
    have hlen : ((b :: bs).drop chunkSize).length = (b :: bs).length - chunkSize := by
      simp [List.length_drop]
    have hfuel : ((b :: bs).drop chunkSize).length ≤ fuel := by
      rw [hlen]
      simp only [List.length_cons] at h ⊢
      have hc : (0:Nat) < chunkSize := by rw [chunkSize]; omega
      omega
    have hnum : numChunks (b :: bs) = numChunks ((b :: bs).drop chunkSize) + 1 := by
      rw [numChunks, numChunks, hlen]
      simp only [List.length_cons]
      rw [chunkSize]
      omega
    rw [splitChunksAux_cons, splitChunksAux_eq fuel _ hfuel, hnum,
        List.range_succ_eq_map, List.map_cons, List.map_map]
    have hhead : chunkAt (b :: bs) 0 = (b :: bs).take chunkSize := by
      simp [chunkAt]
    have htail : List.map (chunkAt (b :: bs) ∘ Nat.succ)
          (List.range (numChunks ((b :: bs).drop chunkSize))) =
        List.map (chunkAt ((b :: bs).drop chunkSize))
          (List.range (numChunks ((b :: bs).drop chunkSize))) := by
      apply List.map_congr_left
      intro k _
      simp only [Function.comp_apply, chunkAt, List.drop_drop]
      have he : chunkSize + k * chunkSize = Nat.succ k * chunkSize := by
        rw [Nat.succ_mul, Nat.add_comm]
      rw [he]
    simp only [List.cons.injEq]
    exact ⟨hhead.symm, htail.symm⟩

theorem splitChunks_eq (bs : List Nat) :
    splitChunks bs = (List.range (numChunks bs)).map (chunkAt bs) :=
  splitChunksAux_eq bs.length bs le_rfl

theorem length_splitChunks (bs : List Nat) : (splitChunks bs).length = numChunks bs := by
  rw [splitChunks_eq, List.length_map, List.length_range]

theorem splitChunksAux_flatten : ∀ (fuel : Nat) (bs : List Nat), bs.length ≤ fuel →
    (splitChunksAux fuel bs).flatten = bs
  | 0, bs, h => by
    have hb : bs = [] := List.length_eq_zero.1 (by omega)
    subst hb
    simp [splitChunksAux_nil]
  | fuel + 1, [], _ => by simp [splitChunksAux_nil]
  | fuel + 1, b :: bs, h => by
    have hfuel : ((b :: bs).drop chunkSize).length ≤ fuel := by
      simp only [List.length_drop, List.length_cons] at h ⊢
      have hc : (0:Nat) < chunkSize := by rw [chunkSize]; omega
      omega
    rw [splitChunksAux_cons, List.flatten_cons, splitChunksAux_flatten fuel _ hfuel,
        List.take_append_drop]

theorem splitChunks_flatten (bs : List Nat) : (splitChunks bs).flatten = bs :=
  splitChunksAux_flatten bs.length bs le_rfl

theorem chunkAt_ne_nil {bs : List Nat} {k : Nat} (hk : k < numChunks bs) :
    chunkAt bs k ≠ [] := by
  have hlt : k * chunkSize < bs.length := by
    rw [numChunks, chunkSize] at hk
    rw [chunkSize]
    omega
  intro hc
  have hl := congrArg List.length hc
  simp only [chunkAt, List.length_take, List.length_drop, List.length_nil] at hl
  rw [chunkSize] at hl hlt
  omega

theorem mem_splitChunks_ne_nil {bs c : List Nat} (hc : c ∈ splitChunks bs) : c ≠ [] := by
  rw [splitChunks_eq, List.mem_map] at hc
  obtain ⟨k, hk, rfl⟩ := hc
  rw [List.mem_range] at hk
  exact chunkAt_ne_nil hk

theorem chunkFilesGo_nil (md5 : List Nat → List Char) (i : Nat) (prior : List Char) :
    chunkFilesGo md5 i prior [] = [] := rfl

theorem chunkFilesGo_cons (md5 : List Nat → List Char) (i : Nat) (prior : List Char)
    (c : List Nat) (cs : List (List Nat)) :
    chunkFilesGo md5 i prior (c :: cs) =
      (chunkName i prior, c) :: chunkFilesGo md5 (i + 1) (md5 c) cs := rfl

theorem chunkFilesGo_eq (md5 : List Nat → List Char) :
    ∀ (cs : List (List Nat)) (i : Nat) (prior : List Char),
    chunkFilesGo md5 i prior cs = (List.range cs.length).map (fun k =>
      (chunkName (i + k) (if k = 0 then prior else md5 (cs.getD (k - 1) [])), cs.getD k []))
  | [], i, prior => by simp [chunkFilesGo_nil]
  | c :: cs, i, prior => by
    rw [chunkFilesGo_cons, chunkFilesGo_eq md5 cs (i + 1) (md5 c)]
    simp only [List.length_cons, List.range_succ_eq_map, List.map_cons, List.map_map]
    simp only [List.cons.injEq]
    constructor
    · simp
    · apply List.map_congr_left
      intro k _
      simp only [Function.comp_apply]
      cases k with
      | zero =>
        simp only [List.getD_cons_succ, List.getD_cons_zero, Nat.add_eq]
        have hi : i + 1 + 0 = i + (0 + 1) := by omega
        simp [hi]
      | succ k' =>
        simp only [List.getD_cons_succ]
        have hi : i + 1 + (k' + 1) = i + (k' + 1 + 1) := by omega
        simp only [Nat.succ_eq_add_one, Nat.add_sub_cancel]
        rw [hi]
        simp

theorem splitChunks_getD {bs : List Nat} {k : Nat} (hk : k < numChunks bs) :
    (splitChunks bs).getD k [] = chunkAt bs k := by
  rw [splitChunks_eq, List.getD_eq_getElem?_getD, List.getElem?_map,
      List.getElem?_range hk]
  rfl

theorem splitFiles_eq (md5 : List Nat → List Char) (img : List Nat) :
    splitFiles md5 img = (List.range (numChunks img)).map
      (fun k => (chunkName k (chainDigest md5 img k), chunkAt img k)) := by
  rw [splitFiles, chunkFilesGo_eq, length_splitChunks]
  apply List.map_congr_left
  intro k hk
  rw [List.mem_range] at hk
  simp only [Prod.mk.injEq, Nat.zero_add]
  refine ⟨?_, splitChunks_getD hk⟩
  cases k with
  | zero => simp [chainDigest]
  | succ k' =>
    have hk' : k' < numChunks img := by omega
    rw [chainDigest, if_neg (by omega), Nat.add_sub_cancel, splitChunks_getD hk']
    rw [if_neg (by omega : ¬ (k' + 1 = 0))]

theorem globMatches_chunkName (i : Nat) (d : List Char) :
    globMatches (chunkName i d) = true := by
  rw [globMatches, chunkName, List.append_assoc, Bool.and_eq_true]
  constructor
  · rw [List.isPrefixOf_iff_prefix]
    exact List.prefix_append _ _
  · rw [List.drop_left]
    have hmem : '.' ∈ pad4 i ++ '.' :: d := by
      apply List.mem_append_right
      exact List.mem_cons_self _ _
    simp [List.contains, List.elem_iff, hmem]

theorem splitFiles_sorted (md5 : List Nat → List Char) (img : List Nat)
    (hn : numChunks img ≤ 10000) :
    List.Pairwise (fun a b : List Char × List Nat => nameLe a.1 b.1 = true)
      (splitFiles md5 img) := by
  rw [splitFiles_eq, List.pairwise_map]
  apply (List.pairwise_lt_range (numChunks img)).imp_of_mem
  intro a b ha hb hab
  rw [List.mem_range] at hb
  exact nameLe_of_ltB (chunkName_ltB hab (by omega) _ _)

/-- C1 (amended): for every digest function and every non-empty image that
splits into at most 10000 chunks, reassembling the chunk files produced by
`__split_rooted_fs` yields a byte-for-byte identical copy of the image, and
the digest-chain file has exactly `⌈S / C⌉` lines, one per chunk, in chunk
order.  (Beyond 10000 chunks the zero-padded index field of the filenames
overflows four digits and the lexicographic sort of `__assemble_rootfs`
misorders the chunks; see the counterexample.) -/
theorem split_assemble_roundtrip (md5 : List Nat → List Char) (img : List Nat)
    (hpos : 0 < img.length) (hn : numChunks img ≤ 10000) :
    assembleChunks (splitFiles md5 img) = img ∧
    (digestChain md5 img).length = (img.length + (chunkSize - 1)) / chunkSize := by
  constructor
  · rw [assembleChunks]
    have hfil : (splitFiles md5 img).filter (fun f => globMatches f.1) = splitFiles md5 img := by
      rw [List.filter_eq_self]
      intro a ha
      rw [splitFiles_eq, List.mem_map] at ha
      obtain ⟨k, _, rfl⟩ := ha
      exact globMatches_chunkName _ _
    rw [hfil, List.mergeSort_of_sorted (splitFiles_sorted md5 img hn)]
    rw [splitFiles_eq, List.map_map]
    have hsnd : ((fun f : List Char × List Nat => f.2) ∘
        fun k => (chunkName k (chainDigest md5 img k), chunkAt img k)) = chunkAt img := rfl
    rw [hsnd, ← splitChunks_eq, splitChunks_flatten]
  · rw [digestChain, List.length_map, length_splitChunks, numChunks]

/-- Witness for `split_assemble_roundtrip` at the one-byte image `[5]`. -/
theorem split_assemble_roundtrip_witness :
    0 < ([5] : List Nat).length ∧ numChunks [5] ≤ 10000 ∧
    (assembleChunks (splitFiles (fun _ => []) [5]) = [5] ∧
     (digestChain (fun _ => []) [5]).length =
       (([5] : List Nat).length + (chunkSize - 1)) / chunkSize) :=
  ⟨by simp, by norm_num [numChunks, chunkSize],
   split_assemble_roundtrip (fun _ => []) [5] (by simp) (by norm_num [numChunks, chunkSize])⟩

/-- C8: an image whose size is a positive exact multiple of the chunk size
splits into exactly `size / chunkSize` chunks, and no produced chunk (in
particular no trailing one) is zero-length. -/
theorem split_exact_multiple (img : List Nat) (hpos : 0 < img.length)
    (hmul : img.length % chunkSize = 0) :
    (splitChunks img).length = img.length / chunkSize ∧
    ∀ c ∈ splitChunks img, c ≠ [] := by
  constructor
  · rw [length_splitChunks, numChunks]
    rw [chunkSize] at hmul ⊢
    omega
  · intro c hc
    exact mem_splitChunks_ne_nil hc

/-- Witness for `split_exact_multiple` at an image of exactly one chunk
size. -/
theorem split_exact_multiple_witness :
    0 < (List.replicate 1048576 (0 : Nat)).length ∧
    (List.replicate 1048576 (0 : Nat)).length % chunkSize = 0 ∧
    ((splitChunks (List.replicate 1048576 (0 : Nat))).length =
       (List.replicate 1048576 (0 : Nat)).length / chunkSize ∧
     ∀ c ∈ splitChunks (List.replicate 1048576 (0 : Nat)), c ≠ []) :=
  ⟨by rw [List.length_replicate]; norm_num,
   by rw [List.length_replicate, chunkSize],
   split_exact_multiple (List.replicate 1048576 0) (by rw [List.length_replicate]; norm_num)
     (by rw [List.length_replicate, chunkSize])⟩

/-! Digest extraction from chunk filenames. -/

theorem decDigits_mem_lt (n : Nat) : ∀ d ∈ decDigits n, d < 10 := by
  induction n using Nat.strong_induction_on with
  | _ n ih =>
    rw [decDigits]
    by_cases h : n < 10
    · rw [if_pos h]
      intro d hd
      rw [List.mem_singleton] at hd
      omega
    · rw [if_neg h]
      intro d hd
      rw [List.mem_append] at hd
      rcases hd with hd | hd
      · exact ih (n / 10) (Nat.div_lt_self (by omega) (by omega)) d hd
      · rw [List.mem_singleton] at hd
        omega

theorem digitChar_ne_dot : ∀ d < 10, digitChar d ≠ '.' := by decide

theorem pad4_no_dot (n : Nat) : '.' ∉ pad4 n := by
  rw [pad4]
  intro hm
  rw [List.mem_append] at hm
  rcases hm with hm | hm
  · rw [List.mem_replicate] at hm
    exact absurd hm.2 (by decide)
  · rw [List.mem_map] at hm
    obtain ⟨d, hd, hdc⟩ := hm
    exact digitChar_ne_dot d (decDigits_mem_lt n d hd) hdc

theorem hex_no_dot {d : List Char} (hd : ∀ c ∈ d, isHexChar c = true) : '.' ∉ d := by
  intro hm
  have := hd '.' hm
  exact absurd this (by decide)

theorem splitOn_chunkName (i : Nat) (d : List Char) (hd : '.' ∉ d) :
    (chunkName i d).splitOn '.' = [("rootfs".data), ("squashfs".data), pad4 i, d] := by
  have hre : chunkName i d =
      ("rootfs".data) ++ '.' :: (("squashfs".data) ++ '.' :: (pad4 i ++ '.' :: d)) := by
    rw [chunkName, List.append_assoc]
    rfl
  rw [hre, splitOn_push _ _ _ (by decide), splitOn_push _ _ _ (by decide),
      splitOn_push _ _ _ (pad4_no_dot i), splitOn_single _ _ hd]

theorem nameDigest_chunkName (i : Nat) (d : List Char) (hd : '.' ∉ d) :
    nameDigest (chunkName i d) = d := by
  rw [nameDigest, splitOn_chunkName i d hd]
  rfl

/-- C2: for every digest function producing 32-character lowercase-hex
digests, and every chunk index `i` of a split image, the digest embedded in
chunk `i`'s filename is the digest of chunk `i-1`'s own bytes (for `i > 0`),
respectively of the entire unsplit image (for `i = 0`); and line `i` of the
digest-chain file is the digest of chunk `i`'s own bytes. -/
theorem chunk_filename_digest_chain (md5 : List Nat → List Char)
    (hmd5 : ∀ bs, (md5 bs).length = 32 ∧ ∀ c ∈ md5 bs, isHexChar c = true)
    (img : List Nat) (i : Nat) (ci cp : List Nat)
    (hci : (splitChunks img)[i]? = some ci)
    (hcp : (if i = 0 then some img else (splitChunks img)[i - 1]?) = some cp) :
    ((splitFiles md5 img)[i]?).map (fun f => nameDigest f.1) = some (md5 cp) ∧
    (digestChain md5 img)[i]? = some (md5 ci) := by
  have hi : i < numChunks img := by
    rw [← length_splitChunks]
    by_contra hcon
    rw [List.getElem?_eq_none (by omega)] at hci
    exact Option.noConfusion hci
  have hfi : (splitFiles md5 img)[i]? =
      some (chunkName i (chainDigest md5 img i), chunkAt img i) := by
    rw [splitFiles_eq, List.getElem?_map, List.getElem?_range hi]
    rfl
  have hchain : chainDigest md5 img i = md5 cp := by
    cases i with
    | zero =>
      rw [if_pos rfl] at hcp
      rw [chainDigest, if_pos rfl, Option.some.inj hcp]
    | succ i' =>
      rw [if_neg (by omega)] at hcp
      have hi' : i' < numChunks img := by omega
      rw [splitChunks_eq, List.getElem?_map, Nat.add_sub_cancel,
          List.getElem?_range hi'] at hcp
      rw [chainDigest, if_neg (by omega), Nat.add_sub_cancel,
          Option.some.inj hcp.symm]
  constructor
  · rw [hfi, Option.map_some']
    have hdot : '.' ∉ chainDigest md5 img i := by
      rw [hchain]
      exact hex_no_dot (fun c hc => (hmd5 cp).2 c hc)
    show some (nameDigest (chunkName i (chainDigest md5 img i))) = some (md5 cp)
    rw [nameDigest_chunkName _ _ hdot, hchain]
  · rw [digestChain, List.getElem?_map, hci, Option.map_some']

theorem md5W_hex : ∀ bs : List Nat, (md5W bs).length = 32 ∧ ∀ c ∈ md5W bs, isHexChar c = true := by
  intro bs
  constructor
  · rw [md5W, List.length_replicate]
  · intro c hc
    rw [md5W, List.mem_replicate] at hc
    rw [hc.2]
    decide

theorem numChunks_imgW : numChunks imgW = 2 := by
  rw [numChunks, imgW, List.length_replicate, chunkSize]

theorem chunkAt_imgW_zero : chunkAt imgW 0 = List.replicate chunkSize 0 := by
  rw [chunkAt, Nat.zero_mul, List.drop_zero, imgW, List.take_replicate]
  have hmin : min chunkSize (chunkSize + 1) = chunkSize := by omega
  rw [hmin]

theorem chunkAt_imgW_one : chunkAt imgW 1 = [0] := by
  rw [chunkAt, Nat.one_mul, imgW, List.drop_replicate]
  have h1 : chunkSize + 1 - chunkSize = 1 := by omega
  rw [h1, List.take_replicate]
  have hmin : min chunkSize 1 = 1 := by rw [chunkSize]; omega
  rw [hmin, List.replicate_one]

theorem splitChunks_imgW_zero : (splitChunks imgW)[0]? = some (List.replicate chunkSize 0) := by
  rw [splitChunks_eq, List.getElem?_map,
      List.getElem?_range (by rw [numChunks_imgW]; omega), Option.map_some', chunkAt_imgW_zero]

theorem splitChunks_imgW_one : (splitChunks imgW)[1]? = some [0] := by
  rw [splitChunks_eq, List.getElem?_map,
      List.getElem?_range (by rw [numChunks_imgW]; omega), Option.map_some', chunkAt_imgW_one]

/-- Witness for `chunk_filename_digest_chain` at the two-chunk image `imgW`
and index `i = 1`. -/
theorem chunk_filename_digest_chain_witness :
    (∀ bs, (md5W bs).length = 32 ∧ ∀ c ∈ md5W bs, isHexChar c = true) ∧
    (splitChunks imgW)[1]? = some [0] ∧
    (if (1 : Nat) = 0 then some imgW else (splitChunks imgW)[1 - 1]?) =
      some (List.replicate chunkSize 0) ∧
    (((splitFiles md5W imgW)[1]?).map (fun f => nameDigest f.1) =
       some (md5W (List.replicate chunkSize 0)) ∧
     (digestChain md5W imgW)[1]? = some (md5W [0])) :=
  ⟨md5W_hex, splitChunks_imgW_one,
   by rw [if_neg (by omega : ¬ (1 : Nat) = 0)]; exact splitChunks_imgW_zero,
   chunk_filename_digest_chain md5W md5W_hex imgW 1 [0] (List.replicate chunkSize 0)
     splitChunks_imgW_one
     (by rw [if_neg (by omega : ¬ (1 : Nat) = 0)]; exact splitChunks_imgW_zero)⟩

/-! The 10001-chunk counterexample: chunk index 10000 needs five digits, and
the lexicographic filename sort places it between indices 1000 and 1001. -/

theorem blkW_length (k : Nat) : (blkW k).length = chunkSize := by
  rw [blkW, List.length_replicate]

theorem splitChunks_step (bs : List Nat) (hbs : bs ≠ []) :
    splitChunks bs = bs.take chunkSize :: splitChunks (bs.drop chunkSize) := by
  rw [splitChunks_eq, splitChunks_eq]
  have hlen : 0 < bs.length := List.length_pos.2 hbs
  have hnum : numChunks bs = numChunks (bs.drop chunkSize) + 1 := by
    rw [numChunks, numChunks, List.length_drop, chunkSize]
    omega
  rw [hnum, List.range_succ_eq_map, List.map_cons, List.map_map]
  simp only [List.cons.injEq]
  constructor
  · simp [chunkAt]
  · apply List.map_congr_left
    intro k _
    simp only [Function.comp_apply, chunkAt, List.drop_drop]
    have he : chunkSize + k * chunkSize = Nat.succ k * chunkSize := by
      rw [Nat.succ_mul, Nat.add_comm]
    rw [he]

theorem splitChunks_blocks : ∀ (blocks : List (List Nat)),
    (∀ b ∈ blocks, b.length = chunkSize) → splitChunks blocks.flatten = blocks
  | [], _ => rfl
  | b :: blocks, h => by
    have hb : b.length = chunkSize := h b (List.mem_cons_self _ _)
    rw [List.flatten_cons]
    have hne : b ++ blocks.flatten ≠ [] := by
      intro hc
      have hl := congrArg List.length hc
      rw [List.length_append, hb, chunkSize] at hl
      simp at hl
    rw [splitChunks_step _ hne, List.take_left' hb, List.drop_left' hb,
        splitChunks_blocks blocks (fun x hx => h x (List.mem_cons_of_mem _ hx))]

theorem splitChunks_imgBig : splitChunks imgBig = (List.range 10001).map blkW := by
  apply splitChunks_blocks
  intro b hb
  rw [List.mem_map] at hb
  obtain ⟨k, _, rfl⟩ := hb
  exact blkW_length k

theorem numChunks_imgBig : numChunks imgBig = 10001 := by
  rw [← length_splitChunks, splitChunks_imgBig, List.length_map, List.length_range]

theorem chunkAt_imgBig {k : Nat} (hk : k < 10001) : chunkAt imgBig k = blkW k := by
  rw [← splitChunks_getD (by rw [numChunks_imgBig]; omega), splitChunks_imgBig,
      List.getD_eq_getElem?_getD, List.getElem?_map, List.getElem?_range hk]
  rfl

theorem splitFiles_imgBig (md5 : List Nat → List Char) :
    splitFiles md5 imgBig = (List.range 10001).map (chunkFileBig md5) := by
  rw [splitFiles_eq, numChunks_imgBig]
  apply List.map_congr_left
  intro k hk
  rw [List.mem_range] at hk
  rw [chunkFileBig, chunkAt_imgBig hk]

theorem decDigits_10000 : decDigits 10000 = [1, 0, 0, 0, 0] := by
  rw [decDigits, if_neg (by omega)]
  have h10 : (10000 : Nat) / 10 = 1000 := by omega
  have hm : (10000 : Nat) % 10 = 0 := by omega
  rw [h10, hm, decDigits_lt10000 (by omega) (by omega)]
  norm_num

theorem pad4_10000 : pad4 10000 = pad4 1000 ++ ['0'] := by
  rw [pad4, decDigits_10000]
  rw [pad4_eq_of_lt (by omega : (1000 : Nat) < 10000)]
  decide

theorem chunkName_lt_big {i : Nat} (hi : i ≤ 1000) (d e : List Char) :
    listLtB (chunkName i d) (chunkName 10000 e) = true := by
  rw [chunkName, chunkName, List.append_assoc, List.append_assoc, listLtB_append_left,
      pad4_10000, List.append_assoc, List.singleton_append]
  rcases Nat.lt_or_ge i 1000 with h | h
  · rw [pad4_eq_of_lt (by omega), pad4_eq_of_lt (by omega : (1000 : Nat) < 10000)]
    have h0 : i / 1000 = 0 := by omega
    rw [h0]
    simp only [List.cons_append]
    exact listLtB_cons_of_lt (by decide) _ _
  · have hieq : i = 1000 := by omega
    subst hieq
    rw [listLtB_append_left]
    exact listLtB_cons_of_lt (by decide) _ _

theorem big_lt_chunkName {j : Nat} (h1 : 1001 ≤ j) (h2 : j < 10000) (d e : List Char) :
    listLtB (chunkName 10000 d) (chunkName j e) = true := by
  rw [chunkName, chunkName, List.append_assoc, List.append_assoc, listLtB_append_left,
      pad4_10000, List.append_assoc, List.singleton_append]
  refine listLtB_append_strict (pad4_ltB (by omega : 1000 < j) h2) ?_ _ _
  rw [pad4_eq_of_lt (by omega : (1000 : Nat) < 10000), pad4_eq_of_lt (by omega)]
  rfl

theorem sorted_bigFiles (md5 : List Nat → List Char) :
    List.Pairwise (fun a b : List Char × List Nat => listLtB a.1 b.1 = true)
      (((List.range 1001).map (chunkFileBig md5)) ++
        chunkFileBig md5 10000 :: ((List.range' 1001 8999).map (chunkFileBig md5))) := by
  rw [List.pairwise_append]
  refine ⟨?_, ?_, ?_⟩
  · rw [List.pairwise_map]
    apply (List.pairwise_lt_range 1001).imp_of_mem
    intro a b _ hb hab
    rw [List.mem_range] at hb
    exact chunkName_ltB hab (by omega) _ _
  · rw [List.pairwise_cons]
    constructor
    · intro f hf
      rw [List.mem_map] at hf
      obtain ⟨j, hj, rfl⟩ := hf
      rw [List.mem_range'_1] at hj
      exact big_lt_chunkName hj.1 (by omega) _ _
    · rw [List.pairwise_map]
      apply (List.pairwise_lt_range' 1001 8999).imp_of_mem
      intro a b _ hb hab
      rw [List.mem_range'_1] at hb
      exact chunkName_ltB hab (by omega) _ _
  · intro x hx y hy
    rw [List.mem_map] at hx
    obtain ⟨i, hi, rfl⟩ := hx
    rw [List.mem_range] at hi
    rw [List.mem_cons] at hy
    rcases hy with hy | hy
    · subst hy
      exact chunkName_lt_big (by omega) _ _
    · rw [List.mem_map] at hy
      obtain ⟨j, hj, rfl⟩ := hy
      rw [List.mem_range'_1] at hj
      exact chunkName_ltB (by omega) (by omega) _ _

theorem perm_bigFiles (md5 : List Nat → List Char) :
    List.Perm ((List.range 10001).map (chunkFileBig md5))
      (((List.range 1001).map (chunkFileBig md5)) ++
        chunkFileBig md5 10000 :: ((List.range' 1001 8999).map (chunkFileBig md5))) := by
  have hr : List.range 10001 = List.range' 0 1001 ++ (List.range' 1001 8999 ++ [10000]) := by
    rw [List.range_eq_range']
    have h1 : List.range' 0 10001 = List.range' 0 1001 ++ List.range' 1001 9000 := by
      rw [List.range'_append_1 0 1001 9000]
    have h2 : List.range' 1001 9000 = List.range' 1001 8999 ++ [10000] := by
      rw [List.range'_1_concat 1001 8999]
    rw [h1, h2]
  rw [hr, List.map_append, List.range_eq_range']
  apply List.Perm.append_left
  rw [List.map_append]
  have hcomm := @List.perm_append_comm (List Char × List Nat)
    ((List.range' 1001 8999).map (chunkFileBig md5)) [chunkFileBig md5 10000]
  rw [List.singleton_append] at hcomm
  exact hcomm

theorem pairwise_strict_of_le_nodup {l : List (List Char × List Nat)}
    (h1 : List.Pairwise (fun a b => nameLe a.1 b.1 = true) l)
    (h2 : (l.map (fun f => f.1)).Nodup) :
    List.Pairwise (fun a b : List Char × List Nat => listLtB a.1 b.1 = true) l := by
  have h2' : List.Pairwise (fun a b : List Char × List Nat => a.1 ≠ b.1) l := by
    rw [List.Nodup, List.pairwise_map] at h2
    exact h2
  apply (h1.and h2').imp
  intro a b hab
  obtain ⟨hle, hne⟩ := hab
  rw [nameLe, Bool.not_eq_eq_eq_not, Bool.not_true] at hle
  by_contra hc
  rw [Bool.not_eq_true] at hc
  exact hne (listLtB_eq_of_both_false hc hle)


theorem mergeSort_eq_of_sorted_perm {l L : List (List Char × List Nat)}
    (hperm : List.Perm l L)
    (hsorted : List.Pairwise (fun a b : List Char × List Nat => listLtB a.1 b.1 = true) L) :
    l.mergeSort (fun a b => nameLe a.1 b.1) = L := by
  haveI : IsAntisymm (List Char × List Nat)
      (fun a b : List Char × List Nat => listLtB a.1 b.1 = true) := by
    constructor
    intro a b hab hba
    rw [listLtB_asymm hab] at hba
    exact Bool.noConfusion hba
  have hp2 : List.Perm (l.mergeSort (fun a b => nameLe a.1 b.1)) L :=
    (List.mergeSort_perm l _).trans hperm
  have hle : List.Pairwise (fun a b : List Char × List Nat => nameLe a.1 b.1 = true)
      (l.mergeSort (fun a b => nameLe a.1 b.1)) :=
    @List.sorted_mergeSort (List Char × List Nat) (fun a b => nameLe a.1 b.1)
      (fun a b c hab hbc => nameLe_trans hab hbc)
      (fun a b => nameLe_total a.1 b.1) l
  have hnodupL : (L.map (fun f => f.1)).Nodup := by
    rw [List.Nodup, List.pairwise_map]
    apply hsorted.imp
    intro a b hab heq
    rw [heq, listLtB_irrefl] at hab
    exact Bool.noConfusion hab
  have hnodup : ((l.mergeSort (fun a b => nameLe a.1 b.1)).map (fun f => f.1)).Nodup :=
    ((hp2.map (fun f => f.1)).nodup_iff).2 hnodupL
  exact List.eq_of_perm_of_sorted hp2 (pairwise_strict_of_le_nodup hle hnodup) hsorted

theorem mergeSort_bigFiles (md5 : List Nat → List Char) :
    (((List.range 10001).map (chunkFileBig md5)).mergeSort
        (fun a b => nameLe a.1 b.1)) =
      ((List.range 1001).map (chunkFileBig md5)) ++
        chunkFileBig md5 10000 :: ((List.range' 1001 8999).map (chunkFileBig md5)) :=
  mergeSort_eq_of_sorted_perm (perm_bigFiles md5) (sorted_bigFiles md5)

theorem filter_bigFiles (md5 : List Nat → List Char) :
    ((List.range 10001).map (chunkFileBig md5)).filter (fun f => globMatches f.1) =
      (List.range 10001).map (chunkFileBig md5) := by
  rw [List.filter_eq_self]
  intro a ha
  rw [List.mem_map] at ha
  obtain ⟨k, _, rfl⟩ := ha
  exact globMatches_chunkName _ _

theorem flatten_blkW_length (l : List Nat) :
    ((l.map blkW).flatten).length = l.length * chunkSize := by
  rw [List.length_flatten, List.map_map]
  have hc : (List.length ∘ blkW) = fun _ : Nat => chunkSize := by
    funext k
    exact blkW_length k
  rw [hc, List.map_const', List.sum_const_nat]

theorem assemble_bigFiles (md5 : List Nat → List Char) :
    assembleChunks (splitFiles md5 imgBig) =
      (((List.range 1001).map blkW).flatten) ++
        (blkW 10000 ++ ((List.range' 1001 8999).map blkW).flatten) := by
  rw [assembleChunks, splitFiles_imgBig, filter_bigFiles, mergeSort_bigFiles]
  rw [List.map_append, List.map_cons, List.map_map, List.map_map]
  rw [List.flatten_append, List.flatten_cons]
  rfl

theorem imgBig_decomp :
    imgBig = (((List.range 1001).map blkW).flatten) ++
      (blkW 1001 ++ ((List.range' 1002 8999).map blkW).flatten) := by
  rw [imgBig]
  have hr : List.range 10001 = List.range 1001 ++ (1001 :: List.range' 1002 8999) := by
    rw [List.range_eq_range', List.range_eq_range']
    have h1 : List.range' 0 10001 = List.range' 0 1001 ++ List.range' 1001 9000 := by
      rw [List.range'_append_1 0 1001 9000]
    have h2 : List.range' 1001 9000 = 1001 :: List.range' 1002 8999 :=
      List.range'_succ 1001 8999 1
    rw [h1, h2]
  rw [hr, List.map_append, List.flatten_append, List.map_cons, List.flatten_cons]

theorem getBig_assembled (md5 : List Nat → List Char) :
    (assembleChunks (splitFiles md5 imgBig))[1001 * chunkSize]? = some (10000 % 256) := by
  rw [assemble_bigFiles]
  rw [List.getElem?_append_right
    (by rw [flatten_blkW_length, List.length_range])]
  rw [flatten_blkW_length, List.length_range]
  have h0 : 1001 * chunkSize - 1001 * chunkSize = 0 := by omega
  rw [h0]
  rw [List.getElem?_append_left (by rw [blkW_length, chunkSize]; omega)]
  rw [blkW, List.getElem?_replicate_of_lt (by rw [chunkSize]; omega)]

theorem getBig_img : imgBig[1001 * chunkSize]? = some (1001 % 256) := by
  rw [imgBig_decomp]
  rw [List.getElem?_append_right
    (by rw [flatten_blkW_length, List.length_range])]
  rw [flatten_blkW_length, List.length_range]
  have h0 : 1001 * chunkSize - 1001 * chunkSize = 0 := by omega
  rw [h0]
  rw [List.getElem?_append_left (by rw [blkW_length, chunkSize]; omega)]
  rw [blkW, List.getElem?_replicate_of_lt (by rw [chunkSize]; omega)]

/-- C1 counterexample: on the concrete 10001-chunk image `imgBig` (10001
MiB, chunk `k` filled with byte `k mod 256`), reassembling the chunk files
produced by the split does NOT reproduce the image, whatever digest
function is used: chunk index 10000 is formatted with five digits, so the
lexicographic filename sort places it between indices 1000 and 1001, and
the byte at offset `1001 * chunkSize` of the assembled output is 16
(from chunk 10000) instead of 233 (from chunk 1001). -/
theorem split_assemble_not_roundtrip :
    assembleChunks (splitFiles md5W imgBig) ≠ imgBig := by
  intro heq
  have h1 : (assembleChunks (splitFiles md5W imgBig))[1001 * chunkSize]? =
      imgBig[1001 * chunkSize]? := by rw [heq]
  rw [getBig_assembled, getBig_img] at h1
  have h2 := Option.some.inj h1
  omega

/-! Lemmas about the blank-line splitter and `strip`. -/

theorem getLastD_append_ne (x y : List Char) (hy : y ≠ []) (d : Char) :
    (x ++ y).getLastD d = y.getLastD d := by
  rw [List.getLastD_eq_getLast?, List.getLastD_eq_getLast?, List.getLast?_append]
  rcases hl : y.getLast? with _ | a
  · rw [List.getLast?_eq_none_iff] at hl
    exact absurd hl hy
  · rfl

theorem noBlankPair_of_no_nl {x : List Char} (h : '\n' ∉ x) : noBlankPair x := by
  rw [noBlankPair]
  induction x with
  | nil => exact List.chain'_nil
  | cons c cs ih =>
    rw [List.mem_cons, not_or] at h
    cases cs with
    | nil => exact List.chain'_singleton c
    | cons c2 cs2 =>
      rw [List.chain'_cons]
      exact ⟨fun hc => h.1 hc.1.symm, ih h.2⟩

theorem noBlankPair_glue {x y : List Char} (hx : '\n' ∉ x)
    (hyh : y.headD 'a' ≠ '\n') (hy : noBlankPair y) :
    noBlankPair (x ++ '\n' :: y) := by
  rw [noBlankPair, List.chain'_append]
  refine ⟨noBlankPair_of_no_nl hx, ?_, ?_⟩
  · cases y with
    | nil => exact List.chain'_singleton _
    | cons b bs =>
      rw [List.chain'_cons]
      refine ⟨fun hc => hyh ?_, hy⟩
      · simpa using hc.2
  · intro a ha b hb
    simp only [List.head?_cons, Option.mem_def, Option.some.injEq] at hb
    subst hb
    intro hc
    exact hx (by rw [← hc.1]; exact List.mem_of_mem_getLast? ha)

theorem splitBlank_no_pair : ∀ (x : List Char), noBlankPair x → splitBlank x = [x]
  | [], _ => rfl
  | [_], _ => rfl
  | c1 :: c2 :: cs, h => by
    rw [noBlankPair, List.chain'_cons] at h
    rw [splitBlank, if_neg h.1]
    rw [splitBlank_no_pair (c2 :: cs) h.2]
    rfl

theorem splitBlank_push : ∀ (x rest : List Char), noBlankPair x →
    x.getLastD 'a' ≠ '\n' →
    splitBlank (x ++ '\n' :: '\n' :: rest) = x :: splitBlank rest
  | [], rest, _, _ => by
    rw [List.nil_append, splitBlank, if_pos ⟨rfl, rfl⟩]
  | [c], rest, _, hl => by
    have hc : ¬(c = '\n' ∧ '\n' = '\n') := by
      intro hcc
      exact hl (by simpa using hcc.1)
    rw [List.singleton_append, splitBlank, if_neg hc,
        splitBlank, if_pos ⟨rfl, rfl⟩]
    rfl
  | c1 :: c2 :: cs, rest, h, hl => by
    rw [noBlankPair, List.chain'_cons] at h
    have hstep := splitBlank_push (c2 :: cs) rest h.2 (by simpa using hl)
    rw [List.cons_append, List.cons_append]
    rw [splitBlank, if_neg h.1]
    rw [← List.cons_append, hstep]
    rfl

theorem splitBlank_sections : ∀ (cores : List (List Char)) (x : List Char),
    noBlankPair x → x.getLastD 'a' ≠ '\n' →
    (∀ c ∈ cores, noBlankPair c ∧ c.getLastD 'a' ≠ '\n') →
    splitBlank (x ++ ((cores.map (fun c => '\n' :: '\n' :: c)).flatten)) = x :: cores
  | [], x, hx, _, _ => by
    rw [List.map_nil, List.flatten_nil, List.append_nil, splitBlank_no_pair x hx]
  | c :: cs, x, hx, hxl, hc => by
    have hrw : x ++ (((c :: cs).map (fun c => '\n' :: '\n' :: c)).flatten) =
        x ++ '\n' :: '\n' :: (c ++ ((cs.map (fun c => '\n' :: '\n' :: c)).flatten)) := by
      rw [List.map_cons, List.flatten_cons]
      simp [List.cons_append]
    rw [hrw, splitBlank_push x _ hx hxl,
        splitBlank_sections cs c (hc c (List.mem_cons_self _ _)).1
          (hc c (List.mem_cons_self _ _)).2
          (fun d hd => hc d (List.mem_cons_of_mem _ hd))]

theorem pyStrip_append_nn (X : List Char) (h1 : pyWs (X.headD 'a') = false)
    (h2 : pyWs (X.getLastD 'a') = false) :
    pyStrip (X ++ ['\n', '\n']) = X := by
  cases X with
  | nil => rfl
  | cons c cs =>
    rw [pyStrip]
    simp only [List.headD_cons] at h1
    rw [List.cons_append, List.dropWhile_cons, if_neg (by rw [h1]; exact Bool.false_ne_true)]
    rw [← List.cons_append, List.reverse_append]
    have hrev : (['\n', '\n'] : List Char).reverse = ['\n', '\n'] := rfl
    rw [hrev]
    have hdw : List.dropWhile pyWs ((['\n', '\n'] : List Char) ++ (c :: cs).reverse) =
        List.dropWhile pyWs ((c :: cs).reverse) := by
      rw [List.cons_append, List.cons_append, List.nil_append,
          List.dropWhile_cons, if_pos (by decide), List.dropWhile_cons, if_pos (by decide)]
    rw [hdw]
    have hlast : (c :: cs).reverse.headD 'a' = (c :: cs).getLastD 'a' := by
      rw [List.headD_eq_head?, List.head?_reverse, List.getLastD_eq_getLast?]
    rcases hr : (c :: cs).reverse with _ | ⟨r, rs⟩
    · exact absurd (congrArg List.length hr) (by simp)
    · rw [List.dropWhile_cons]
      rw [hr] at hlast
      simp only [List.headD_cons] at hlast
      have hrws : pyWs r = false := by rw [hlast]; exact h2
      rw [hrws]
      simp only [Bool.false_eq_true, if_false]
      rw [← hr, List.reverse_reverse]

/-! Parsing one written section back. -/

theorem goodField_no_nl {v : List Char} (h : goodField v) : '\n' ∉ v := by
  intro hm
  have := h.1 '\n' hm
  exact absurd this (by decide)

theorem goodField_no_eq {v : List Char} (h : goodField v) : '=' ∉ v := by
  intro hm
  have := h.1 '=' hm
  exact absurd this (by decide)

theorem no_nl_lineOf {key v : List Char} (hk : '\n' ∉ key) (hv : '\n' ∉ v) :
    '\n' ∉ lineOf key v := by
  rw [lineOf]
  intro hm
  rw [List.mem_append, List.mem_cons] at hm
  rcases hm with hm | hm | hm
  · exact hk hm
  · exact absurd hm (by decide)
  · exact hv hm

theorem lineOf_ne_nil (key v : List Char) (hk : key ≠ []) : lineOf key v ≠ [] := by
  rw [lineOf]
  cases key with
  | nil => exact absurd rfl hk
  | cons c cs => simp

theorem pySplitlines_core (t n s m : List Char)
    (ht : '\n' ∉ t) (hn : '\n' ∉ n) (hs : '\n' ∉ s) (hm : '\n' ∉ m) :
    pySplitlines (sectionCore t n s m) =
      [lineOf ("img_type".data) t, lineOf ("img_name".data) n,
       lineOf ("img_size".data) s, lineOf ("img_md5".data) m] := by
  have hl1 : '\n' ∉ lineOf ("img_type".data) t := no_nl_lineOf (by decide) ht
  have hl2 : '\n' ∉ lineOf ("img_name".data) n := no_nl_lineOf (by decide) hn
  have hl3 : '\n' ∉ lineOf ("img_size".data) s := no_nl_lineOf (by decide) hs
  have hl4 : '\n' ∉ lineOf ("img_md5".data) m := no_nl_lineOf (by decide) hm
  rw [pySplitlines, sectionCore, splitOn_push _ _ _ hl1, splitOn_push _ _ _ hl2,
      splitOn_push _ _ _ hl3, splitOn_single _ _ hl4]
  have hlast : ([lineOf ("img_type".data) t, lineOf ("img_name".data) n,
      lineOf ("img_size".data) s, lineOf ("img_md5".data) m]).getLastD ([] : List Char) =
      lineOf ("img_md5".data) m := rfl
  rw [hlast, if_neg (lineOf_ne_nil _ m (by decide))]

theorem addLine_lineOf (d : PyDict (List Char) (List Char)) (key v : List Char)
    (hk : '=' ∉ key) (hv : '=' ∉ v) :
    addLine d (lineOf key v) = some (pyInsert d (pyRemovePre imgPre key) v) := by
  rw [addLine, lineOf, splitOn_push _ _ _ hk, splitOn_single _ _ hv]

theorem buildSection_core (t n s m : List Char) (ht : '=' ∉ t) (hn : '=' ∉ n)
    (hs : '=' ∉ s) (hm : '=' ∉ m) :
    buildSection [lineOf ("img_type".data) t, lineOf ("img_name".data) n,
      lineOf ("img_size".data) s, lineOf ("img_md5".data) m] =
      some (entryDict t n s m) := by
  rw [buildSection]
  simp only [List.foldlM_cons, List.foldlM_nil]
  rw [addLine_lineOf _ _ _ (by decide) ht]
  simp only [Option.bind_eq_bind, Option.some_bind]
  rw [addLine_lineOf _ _ _ (by decide) hn]
  simp only [Option.some_bind]
  rw [addLine_lineOf _ _ _ (by decide) hs]
  simp only [Option.some_bind]
  rw [addLine_lineOf _ _ _ (by decide) hm]
  rfl

theorem parseSection_core (parsed : Sections) (t n s m : List Char)
    (ht : goodField t) (hn : goodField n) (hs : goodField s) (hm : goodField m) :
    parseSection parsed (sectionCore t n s m) =
      some (pyInsert parsed t (entryDict t n s m)) := by
  rw [parseSection]
  simp only
  rw [pySplitlines_core t n s m (goodField_no_nl ht) (goodField_no_nl hn)
      (goodField_no_nl hs) (goodField_no_nl hm)]
  rw [if_pos (by simp)]
  rw [buildSection_core t n s m (goodField_no_eq ht) (goodField_no_eq hn)
      (goodField_no_eq hs) (goodField_no_eq hm)]
  rfl

theorem pyInsert_fresh {α β : Type} [DecidableEq α] {d : PyDict α β} {k : α} (v : β)
    (h : ∀ kv ∈ d, kv.1 ≠ k) : pyInsert d k v = d ++ [(k, v)] := by
  rw [pyInsert, if_neg]
  intro hc
  rw [List.any_eq_true] at hc
  obtain ⟨kv, hkv, hp⟩ := hc
  exact h kv hkv (by simpa using hp)

theorem parseSection_one_line (parsed : Sections) (x : List Char)
    (hx : '\n' ∉ x) (hne : x ≠ []) : parseSection parsed x = some parsed := by
  rw [parseSection]
  simp only
  have h1 : pySplitlines x = [x] := by
    rw [pySplitlines, splitOn_single _ _ hx]
    have hlast : ([x]).getLastD ([] : List Char) = x := rfl
    rw [hlast, if_neg hne]
  rw [h1, if_neg (by simp)]
  rfl

/-! The write side and the full manifest round trip. -/

theorem coreOf_entryDict (t n s m : List Char) :
    coreOf (entryDict t n s m) = sectionCore t n s m := rfl

theorem writeEntry_entryDict (t n s m : List Char) :
    writeEntry (entryDict t n s m) = some (sectionCore t n s m ++ ['\n', '\n']) := rfl

theorem write_fold : ∀ (info : Sections) (acc : List Char),
    (∀ td ∈ info, entryOk td) →
    info.foldlM (fun acc kv => do
      let e ← writeEntry kv.2
      pure (acc ++ e)) acc =
      some (acc ++ ((info.map (fun td => coreOf td.2 ++ ['\n', '\n'])).flatten))
  | [], acc, _ => by simp
  | td :: tds, acc, h => by
    obtain ⟨t, n, s, m, htd, _, _, _, _⟩ := h td (List.mem_cons_self _ _)
    rw [List.foldlM_cons]
    have hw : writeEntry td.2 = some (coreOf td.2 ++ ['\n', '\n']) := by
      rw [htd, writeEntry_entryDict, coreOf_entryDict]
    rw [hw]
    simp only [Option.bind_eq_bind, Option.some_bind]
    show List.foldlM (fun acc kv => do
        let e ← writeEntry kv.2
        pure (acc ++ e)) (acc ++ (coreOf td.2 ++ ['\n', '\n'])) tds =
      some (acc ++ (((td :: tds).map (fun td => coreOf td.2 ++ ['\n', '\n'])).flatten))
    rw [write_fold tds (acc ++ (coreOf td.2 ++ ['\n', '\n']))
      (fun x hx => h x (List.mem_cons_of_mem _ hx))]
    rw [List.map_cons, List.flatten_cons, List.append_assoc]

theorem write_wf (version : List Char) (info : Sections)
    (h : ∀ td ∈ info, entryOk td) :
    write_ota_update_in version info =
      some (("ota_version=".data) ++ version ++ '\n' :: '\n' ::
        ((info.map (fun td => coreOf td.2 ++ ['\n', '\n'])).flatten)) := by
  rw [write_ota_update_in, write_fold info [] h]
  simp only [List.nil_append, Option.bind_eq_bind, Option.pure_def, Option.some_bind]

theorem parse_fold_cores : ∀ (info : Sections) (parsed : Sections),
    (∀ td ∈ info, entryOk td) →
    (∀ td ∈ info, ∀ pd ∈ parsed, pd.1 ≠ td.1) →
    ((info.map (fun td => td.1)).Nodup) →
    (info.map (fun td => coreOf td.2)).foldlM parseSection parsed = some (parsed ++ info)
  | [], parsed, _, _, _ => by simp
  | td :: tds, parsed, h, hfresh, hnodup => by
    obtain ⟨t, n, s, m, htd, ht, hn, hs, hm⟩ := h td (List.mem_cons_self _ _)
    rw [List.map_cons, List.foldlM_cons]
    have hcore : coreOf td.2 = sectionCore t n s m := by rw [htd, coreOf_entryDict]
    have hkey : td.1 = t := by rw [htd]
    have hsec : parseSection parsed (coreOf td.2) = some (parsed ++ [td]) := by
      rw [hcore, parseSection_core parsed t n s m ht hn hs hm,
          pyInsert_fresh _ (fun kv hkv hc =>
            hfresh td (List.mem_cons_self _ _) kv hkv (hc.trans hkey.symm))]
      rw [htd]
    rw [hsec]
    simp only [Option.bind_eq_bind, Option.some_bind]
    rw [List.map_cons, List.nodup_cons] at hnodup
    have hfresh' : ∀ td' ∈ tds, ∀ pd ∈ parsed ++ [td], pd.1 ≠ td'.1 := by
      intro td' htd' pd hpd
      rw [List.mem_append, List.mem_singleton] at hpd
      rcases hpd with hpd | hpd
      · exact hfresh td' (List.mem_cons_of_mem _ htd') pd hpd
      · subst hpd
        intro hc
        exact hnodup.1 (hc ▸ (List.mem_map_of_mem (fun x => x.1) htd'))
    rw [parse_fold_cores tds (parsed ++ [td])
        (fun x hx => h x (List.mem_cons_of_mem _ hx)) hfresh' hnodup.2]
    rw [List.append_assoc, List.singleton_append]

theorem shift_nn (l : List (List Char)) :
    '\n' :: '\n' :: ((l.map (fun c => c ++ ['\n', '\n'])).flatten) =
      ((l.map (fun c => '\n' :: '\n' :: c)).flatten) ++ ['\n', '\n'] := by
  induction l with
  | nil => rfl
  | cons c cs ih =>
    simp only [List.map_cons, List.flatten_cons, List.cons_append, List.nil_append,
      List.append_assoc]
    rw [ih]

theorem getLastD_of_ne_nil {l : List Char} (h : l ≠ []) (d d' : Char) :
    l.getLastD d = l.getLastD d' := by
  rw [List.getLastD_eq_getLast?, List.getLastD_eq_getLast?]
  rcases hl : l.getLast? with _ | a
  · rw [List.getLast?_eq_none_iff] at hl
    exact absurd hl h
  · rfl

theorem lineOf_last {key v : List Char} (hv : pyWs (v.getLastD 'a') = false) :
    pyWs ((lineOf key v).getLastD 'a') = false := by
  rw [lineOf, getLastD_append_ne _ _ (by simp) 'a']
  cases v with
  | nil => decide
  | cons c cs =>
    rw [show ('=' :: c :: cs : List Char) = ['='] ++ (c :: cs) from rfl,
        getLastD_append_ne _ _ (by simp) 'a']
    exact hv

theorem glue_last {x y : List Char} (hy : y ≠ [])
    (h : pyWs (y.getLastD 'a') = false) :
    pyWs ((x ++ '\n' :: y).getLastD 'a') = false := by
  rw [getLastD_append_ne _ _ (by simp) 'a',
      show ('\n' :: y : List Char) = ['\n'] ++ y from rfl,
      getLastD_append_ne _ _ hy 'a']
  exact h

theorem sectionCore_last {t n s m : List Char} (hm : pyWs (m.getLastD 'a') = false) :
    pyWs ((sectionCore t n s m).getLastD 'a') = false := by
  rw [sectionCore]
  apply glue_last (by simp [lineOf])
  apply glue_last (by simp [lineOf])
  apply glue_last (lineOf_ne_nil _ _ (by decide))
  exact lineOf_last hm

theorem headD_lineOf_append (key v w : List Char) (c : Char) (hk : key = 'i' :: key.tail) :
    ((lineOf key v ++ w).headD c) = 'i' := by
  rw [lineOf, hk]
  rfl

theorem sectionCore_noBlankPair {t n s m : List Char}
    (ht : '\n' ∉ t) (hn : '\n' ∉ n) (hs : '\n' ∉ s) (hm : '\n' ∉ m) :
    noBlankPair (sectionCore t n s m) := by
  rw [sectionCore]
  apply noBlankPair_glue (no_nl_lineOf (by decide) ht)
  · rw [headD_lineOf_append _ _ _ _ rfl]
    decide
  apply noBlankPair_glue (no_nl_lineOf (by decide) hn)
  · rw [headD_lineOf_append _ _ _ _ rfl]
    decide
  apply noBlankPair_glue (no_nl_lineOf (by decide) hs)
  · rw [show (lineOf ("img_md5".data) m).headD 'a' =
      (lineOf ("img_md5".data) m ++ []).headD 'a' by rw [List.append_nil]]
    rw [headD_lineOf_append _ _ _ _ rfl]
    decide
  exact noBlankPair_of_no_nl (no_nl_lineOf (by decide) hm)

theorem flat_last_not_ws : ∀ (cores : List (List Char)),
    (∀ c ∈ cores, pyWs (c.getLastD 'a') = false ∧ c ≠ []) → cores ≠ [] →
    pyWs ((((cores.map (fun c => '\n' :: '\n' :: c)).flatten)).getLastD 'a') = false
  | [], _, hne => absurd rfl hne
  | c :: cs, h, _ => by
    rw [List.map_cons, List.flatten_cons]
    cases cs with
    | nil =>
      simp only [List.map_nil, List.flatten_nil, List.append_nil]
      have hc := h c (List.mem_cons_self _ _)
      rw [show ('\n' :: '\n' :: c : List Char) = ['\n', '\n'] ++ c from rfl,
          getLastD_append_ne _ _ hc.2 'a']
      exact hc.1
    | cons c2 cs2 =>
      have hne2 : (((c2 :: cs2).map (fun c => '\n' :: '\n' :: c)).flatten) ≠ [] := by
        rw [List.map_cons, List.flatten_cons]
        simp
      rw [getLastD_append_ne _ _ hne2 'a']
      exact flat_last_not_ws (c2 :: cs2)
        (fun d hd => h d (List.mem_cons_of_mem _ hd)) (by simp)

/-- C3: serialising a well-formed Manifest with `write_ota_update_in` and
parsing the resulting text with `parse_ota_update_in` yields the Manifest
back, for every well-formed version string and every well-formed Manifest
with at least one entry, including entries whose field values are the empty
string. -/
theorem manifest_roundtrip (version : List Char) (info : Sections)
    (hv : goodField version) (hwf : wfManifest info) (hne : info ≠ []) :
    (write_ota_update_in version info).bind parse_ota_update_in = some info := by
  rw [write_wf version info hwf.1, Option.some_bind]
  rw [parse_ota_update_in]
  have hmm : info.map (fun td => coreOf td.2 ++ ['\n', '\n']) =
      (info.map (fun td => coreOf td.2)).map (fun c => c ++ ['\n', '\n']) := by
    rw [List.map_map]
    rfl
  have htext : ("ota_version=".data) ++ version ++ '\n' :: '\n' ::
      ((info.map (fun td => coreOf td.2 ++ ['\n', '\n'])).flatten) =
      ((("ota_version=".data) ++ version) ++
        (((info.map (fun td => coreOf td.2)).map (fun c => '\n' :: '\n' :: c)).flatten))
        ++ ['\n', '\n'] := by
    rw [hmm, shift_nn]
    simp [List.append_assoc]
  rw [htext]
  have hcoreprops : ∀ c ∈ info.map (fun td => coreOf td.2),
      (noBlankPair c ∧ c.getLastD 'a' ≠ '\n') ∧
      (pyWs (c.getLastD 'a') = false ∧ c ≠ []) := by
    intro c hc
    rw [List.mem_map] at hc
    obtain ⟨td, htd, rfl⟩ := hc
    obtain ⟨t, n, s, m, htd2, ht, hn, hs, hm⟩ := hwf.1 td htd
    have hcore : coreOf td.2 = sectionCore t n s m := by rw [htd2, coreOf_entryDict]
    rw [hcore]
    have hlast : pyWs ((sectionCore t n s m).getLastD 'a') = false :=
      sectionCore_last hm.2
    refine ⟨⟨sectionCore_noBlankPair (goodField_no_nl ht) (goodField_no_nl hn)
      (goodField_no_nl hs) (goodField_no_nl hm), ?_⟩, hlast, ?_⟩
    · intro hc
      rw [hc] at hlast
      exact absurd hlast (by decide)
    · rw [sectionCore]
      simp [lineOf]
  have hvline_no_nl : '\n' ∉ ("ota_version=".data) ++ version := by
    intro hmem
    rw [List.mem_append] at hmem
    rcases hmem with hmem | hmem
    · exact absurd hmem (by decide)
    · exact absurd (hv.1 '\n' hmem) (by decide)
  have hvline_last : pyWs ((("ota_version=".data) ++ version).getLastD 'a') = false := by
    cases hver : version with
    | nil => decide
    | cons c cs =>
      rw [getLastD_append_ne _ _ (by simp) 'a', ← hver]
      exact hv.2
  have hstrip : pyStrip (((("ota_version=".data) ++ version) ++
      (((info.map (fun td => coreOf td.2)).map (fun c => '\n' :: '\n' :: c)).flatten))
      ++ ['\n', '\n']) =
      (("ota_version=".data) ++ version) ++
        (((info.map (fun td => coreOf td.2)).map (fun c => '\n' :: '\n' :: c)).flatten) := by
    apply pyStrip_append_nn
    · rfl
    · have hne2 : (((info.map (fun td => coreOf td.2)).map
          (fun c => '\n' :: '\n' :: c)).flatten) ≠ [] := by
        cases hi : info with
        | nil => exact absurd hi hne
        | cons td tds => simp
      rw [getLastD_append_ne _ _ hne2 'a']
      apply flat_last_not_ws _ (fun c hc => (hcoreprops c hc).2)
      cases hi : info with
      | nil => exact absurd hi hne
      | cons td tds => simp
  rw [hstrip]
  have hvl_ne : ((("ota_version=".data) ++ version).getLastD 'a') ≠ '\n' := by
    intro hc
    have hmem := List.getLastD_mem_cons (("ota_version=".data) ++ version) 'a'
    rw [hc, List.mem_cons] at hmem
    rcases hmem with h1 | h1
    · exact absurd h1 (by decide)
    · exact hvline_no_nl h1
  rw [splitBlank_sections _ _ (noBlankPair_of_no_nl hvline_no_nl) hvl_ne
      (fun c hc => (hcoreprops c hc).1)]
  rw [List.foldlM_cons,
      parseSection_one_line [] _ hvline_no_nl (by simp),
      Option.bind_eq_bind, Option.some_bind]
  rw [parse_fold_cores info [] hwf.1 (by intro td _ pd hpd; exact absurd hpd (List.not_mem_nil pd))
      hwf.2]
  rw [List.nil_append]

/-- Witness for `manifest_roundtrip` at a one-entry manifest. -/
theorem manifest_roundtrip_witness :
    goodField ("1".data) ∧
    wfManifest [(("rootfs".data),
      entryDict ("rootfs".data) ("a".data) ("1".data) ("x".data))] ∧
    ([(("rootfs".data), entryDict ("rootfs".data) ("a".data) ("1".data) ("x".data))] ≠
      ([] : Sections)) ∧
    (write_ota_update_in ("1".data)
        [(("rootfs".data), entryDict ("rootfs".data) ("a".data) ("1".data) ("x".data))]).bind
      parse_ota_update_in =
      some [(("rootfs".data), entryDict ("rootfs".data) ("a".data) ("1".data) ("x".data))] := by
  have hgood : goodField ("1".data) := ⟨by decide, by decide⟩
  have hwf : wfManifest [(("rootfs".data),
      entryDict ("rootfs".data) ("a".data) ("1".data) ("x".data))] := by
    constructor
    · intro td htd
      rw [List.mem_singleton] at htd
      subst htd
      exact ⟨("rootfs".data), ("a".data), ("1".data), ("x".data), rfl,
        ⟨by decide, by decide⟩, ⟨by decide, by decide⟩,
        ⟨by decide, by decide⟩, ⟨by decide, by decide⟩⟩
    · simp
  exact ⟨hgood, hwf, by simp, manifest_roundtrip _ _ hgood hwf (by simp)⟩

/-! Scenario C, duplicate types, and values containing the separator. -/

/-- C4 amended: parsing the Scenario C text yields the mapping whose only
key is `rootfs`, with entry fields `type = rootfs`, `name =
rootfs.squashfs`, `size = 1000`, `md5 = abc123`.  The `ota_version` line is
a one-line section, which the parser skips; the returned value carries no
version. -/
theorem parse_scenario_c :
    parse_ota_update_in
      (("ota_version=1.1.0.30\n\nimg_type=rootfs\nimg_name=rootfs.squashfs\nimg_size=1000\nimg_md5=abc123\n\n".data)) =
      some [(("rootfs".data),
        entryDict ("rootfs".data) ("rootfs.squashfs".data) ("1000".data) ("abc123".data))] := by
  rfl

/-- C4 counterexample: on the exact Scenario C input the parse result is
the single `rootfs` section, and the string `1.1.0.30` occurs nowhere in it
(not as an outer key, not as an inner key, not as an inner value), so the
parse result cannot be a Manifest whose version is `1.1.0.30`: the code
returns only the section dictionaries and drops the version line. -/
theorem parse_scenario_c_version_missing :
    parse_ota_update_in
      (("ota_version=1.1.0.30\n\nimg_type=rootfs\nimg_name=rootfs.squashfs\nimg_size=1000\nimg_md5=abc123\n\n".data)) =
      some [(("rootfs".data),
        entryDict ("rootfs".data) ("rootfs.squashfs".data) ("1000".data) ("abc123".data))] ∧
    (∀ td ∈ [(("rootfs".data),
        entryDict ("rootfs".data) ("rootfs.squashfs".data) ("1000".data) ("abc123".data))],
      td.1 ≠ ("1.1.0.30".data) ∧
        ∀ kv ∈ td.2, kv.1 ≠ ("1.1.0.30".data) ∧ kv.2 ≠ ("1.1.0.30".data)) :=
  ⟨by rfl, by decide⟩

theorem pyInsert_single_hit {v1 v2 : PyDict (List Char) (List Char)} (k : List Char) :
    pyInsert [(k, v1)] k v2 = [(k, v2)] := by
  rw [pyInsert, if_pos (by simp)]
  simp

/-- C9 amended: a manifest text with two well-formed sections carrying the
same `img_type` parses without any error; the parser silently returns a
single entry for that type holding the values of the LATER section. -/
theorem parse_duplicate_type_overwrites (version t n1 s1 m1 n2 s2 m2 : List Char)
    (hv : goodField version) (ht : goodField t)
    (hn1 : goodField n1) (hs1 : goodField s1) (hm1 : goodField m1)
    (hn2 : goodField n2) (hs2 : goodField s2) (hm2 : goodField m2) :
    parse_ota_update_in (((("ota_version=".data) ++ version) ++
      ((([sectionCore t n1 s1 m1, sectionCore t n2 s2 m2]).map
        (fun c => '\n' :: '\n' :: c)).flatten)) ++ ['\n', '\n']) =
      some [(t, entryDict t n2 s2 m2)] := by
  rw [parse_ota_update_in]
  have hvline_no_nl : '\n' ∉ ("ota_version=".data) ++ version := by
    intro hmem
    rw [List.mem_append] at hmem
    rcases hmem with hmem | hmem
    · exact absurd hmem (by decide)
    · exact absurd (hv.1 '\n' hmem) (by decide)
  have hcprops : ∀ c ∈ [sectionCore t n1 s1 m1, sectionCore t n2 s2 m2],
      noBlankPair c ∧ c.getLastD 'a' ≠ '\n' := by
    intro c hc
    have hof : ∀ (x y z w : List Char), goodField x → goodField y → goodField z →
        goodField w → noBlankPair (sectionCore x y z w) ∧
          (sectionCore x y z w).getLastD 'a' ≠ '\n' := by
      intro x y z w hx hy hz hw
      have hlast : pyWs ((sectionCore x y z w).getLastD 'a') = false :=
        sectionCore_last hw.2
      refine ⟨sectionCore_noBlankPair (goodField_no_nl hx) (goodField_no_nl hy)
        (goodField_no_nl hz) (goodField_no_nl hw), ?_⟩
      intro hcc
      rw [hcc] at hlast
      exact absurd hlast (by decide)
    rw [List.mem_cons, List.mem_singleton] at hc
    rcases hc with hc | hc <;> subst hc
    · exact hof t n1 s1 m1 ht hn1 hs1 hm1
    · exact hof t n2 s2 m2 ht hn2 hs2 hm2
  have hstrip : pyStrip (((("ota_version=".data) ++ version) ++
      ((([sectionCore t n1 s1 m1, sectionCore t n2 s2 m2]).map
        (fun c => '\n' :: '\n' :: c)).flatten)) ++ ['\n', '\n']) =
      ((("ota_version=".data) ++ version) ++
        ((([sectionCore t n1 s1 m1, sectionCore t n2 s2 m2]).map
          (fun c => '\n' :: '\n' :: c)).flatten)) := by
    apply pyStrip_append_nn
    · rfl
    · have hne2 : ((([sectionCore t n1 s1 m1, sectionCore t n2 s2 m2]).map
          (fun c => '\n' :: '\n' :: c)).flatten) ≠ [] := by simp
      rw [getLastD_append_ne _ _ hne2 'a']
      apply flat_last_not_ws
      · intro c hc
        rw [List.mem_cons, List.mem_singleton] at hc
        constructor
        · rcases hc with hc | hc <;> subst hc
          · exact sectionCore_last hm1.2
          · exact sectionCore_last hm2.2
        · rcases hc with hc | hc <;> subst hc <;>
            (rw [sectionCore]; simp [lineOf])
      · simp
  rw [hstrip]
  have hvl_ne : ((("ota_version=".data) ++ version).getLastD 'a') ≠ '\n' := by
    intro hc
    have hmem := List.getLastD_mem_cons (("ota_version=".data) ++ version) 'a'
    rw [hc, List.mem_cons] at hmem
    rcases hmem with h1 | h1
    · exact absurd h1 (by decide)
    · exact hvline_no_nl h1
  rw [splitBlank_sections _ _ (noBlankPair_of_no_nl hvline_no_nl) hvl_ne hcprops]
  rw [List.foldlM_cons, parseSection_one_line [] _ hvline_no_nl (by simp),
      Option.bind_eq_bind, Option.some_bind]
  rw [List.foldlM_cons, parseSection_core [] t n1 s1 m1 ht hn1 hs1 hm1,
      Option.bind_eq_bind, Option.some_bind]
  rw [List.foldlM_cons, pyInsert_fresh _ (by intro kv hkv; exact absurd hkv (List.not_mem_nil kv)),
      List.nil_append,
      parseSection_core [(t, entryDict t n1 s1 m1)] t n2 s2 m2 ht hn2 hs2 hm2,
      Option.bind_eq_bind, Option.some_bind]
  rw [pyInsert_single_hit t, List.foldlM_nil]
  rfl

/-- Witness for `parse_duplicate_type_overwrites` at concrete sections. -/
theorem parse_duplicate_type_overwrites_witness :
    parse_ota_update_in (((("ota_version=".data) ++ ("1".data)) ++
      ((([sectionCore ("rootfs".data) ("a".data) ("1".data) ("x".data),
          sectionCore ("rootfs".data) ("b".data) ("2".data) ("y".data)]).map
        (fun c => '\n' :: '\n' :: c)).flatten)) ++ ['\n', '\n']) =
      some [(("rootfs".data),
        entryDict ("rootfs".data) ("b".data) ("2".data) ("y".data))] :=
  parse_duplicate_type_overwrites ("1".data) ("rootfs".data) ("a".data) ("1".data)
    ("x".data) ("b".data) ("2".data) ("y".data)
    ⟨by decide, by decide⟩ ⟨by decide, by decide⟩ ⟨by decide, by decide⟩
    ⟨by decide, by decide⟩ ⟨by decide, by decide⟩ ⟨by decide, by decide⟩
    ⟨by decide, by decide⟩ ⟨by decide, by decide⟩

/-- C9 counterexample: a manifest text containing two sections with the
same `img_type=rootfs` parses successfully (no error of any kind); the
result maps `rootfs` to the later section's values, the earlier section
having been silently overwritten.  This refutes the claim that the parser
treats the collision as a hard parse error. -/
theorem parse_duplicate_type_not_error :
    parse_ota_update_in
      (("ota_version=1\n\nimg_type=rootfs\nimg_name=a\nimg_size=1\nimg_md5=x\n\nimg_type=rootfs\nimg_name=b\nimg_size=2\nimg_md5=y\n\n".data)) =
      some [(("rootfs".data),
        entryDict ("rootfs".data) ("b".data) ("2".data) ("y".data))] := by
  rfl

theorem mem_pyInsert {α β : Type} [DecidableEq α] {d : PyDict α β} {k : α} {v : β}
    {kv : α × β} (h : kv ∈ pyInsert d k v) : kv ∈ d ∨ kv = (k, v) := by
  rw [pyInsert] at h
  split at h
  · rw [List.mem_map] at h
    obtain ⟨kv', hkv', heq⟩ := h
    by_cases hk : kv'.1 = k
    · rw [if_pos hk] at heq
      exact Or.inr heq.symm
    · rw [if_neg hk] at heq
      exact Or.inl (heq ▸ hkv')
  · rw [List.mem_append, List.mem_singleton] at h
    exact h

theorem buildSectionGo_values :
    ∀ (contents : List (List Char)) (d0 d : PyDict (List Char) (List Char)),
    (∀ kv ∈ d0, '=' ∉ kv.2) → List.foldlM addLine d0 contents = some d →
    ∀ kv ∈ d, '=' ∉ kv.2
  | [], d0, d, h0, hfold => by
    rw [List.foldlM_nil] at hfold
    have : d0 = d := Option.some.inj hfold
    exact this ▸ h0
  | line :: rest, d0, d, h0, hfold => by
    rw [List.foldlM_cons] at hfold
    rcases haddr : addLine d0 line with _ | d1
    · rw [haddr] at hfold
      exact Option.noConfusion hfold
    · rw [haddr, Option.bind_eq_bind, Option.some_bind] at hfold
      have h1 : ∀ kv ∈ d1, '=' ∉ kv.2 := by
        rcases hsplit : line.splitOn '=' with _ | ⟨k0, _ | ⟨v0, rest0⟩⟩
        · rw [addLine, hsplit] at haddr
          exact Option.noConfusion haddr
        · rw [addLine, hsplit] at haddr
          exact Option.noConfusion haddr
        · rw [addLine, hsplit] at haddr
          have hd1 : d1 = pyInsert d0 (pyRemovePre imgPre k0) v0 :=
            (Option.some.inj haddr).symm
          intro kv hkv
          rw [hd1] at hkv
          rcases mem_pyInsert hkv with hm | hm
          · exact h0 kv hm
          · rw [hm]
            exact splitOn_sep_not_mem '=' line v0
              (by rw [hsplit]; exact List.mem_cons_of_mem _ (List.mem_cons_self _ _))
      exact buildSectionGo_values rest d1 d h1 hfold

theorem parseGo_values :
    ∀ (secs : List (List Char)) (p0 m : Sections),
    (∀ td ∈ p0, ∀ kv ∈ td.2, '=' ∉ kv.2) →
    List.foldlM parseSection p0 secs = some m →
    ∀ td ∈ m, ∀ kv ∈ td.2, '=' ∉ kv.2
  | [], p0, m, h0, hfold => by
    rw [List.foldlM_nil] at hfold
    have : p0 = m := Option.some.inj hfold
    exact this ▸ h0
  | sec :: rest, p0, m, h0, hfold => by
    rw [List.foldlM_cons] at hfold
    rcases hps : parseSection p0 sec with _ | p1
    · rw [hps] at hfold
      exact Option.noConfusion hfold
    · rw [hps, Option.bind_eq_bind, Option.some_bind] at hfold
      have h1 : ∀ td ∈ p1, ∀ kv ∈ td.2, '=' ∉ kv.2 := by
        rw [parseSection] at hps
        simp only at hps
        split at hps
        · rcases hb : buildSection (pySplitlines sec) with _ | dd
          · rw [hb] at hps
            exact Option.noConfusion hps
          · rw [hb, Option.bind_eq_bind, Option.some_bind] at hps
            rcases hl : pyLookup dd ("type".data) with _ | tt
            · rw [hl] at hps
              exact Option.noConfusion hps
            · rw [hl, Option.bind_eq_bind, Option.some_bind] at hps
              have hp1 : p1 = pyInsert p0 tt dd := (Option.some.inj hps).symm
              intro td htd
              rw [hp1] at htd
              rcases mem_pyInsert htd with hm | hm
              · exact h0 td hm
              · rw [hm]
                exact buildSectionGo_values (pySplitlines sec) [] dd
                  (fun kv hkv => absurd hkv (List.not_mem_nil kv)) hb
        · have hp1 : p0 = p1 := Option.some.inj hps
          exact hp1 ▸ h0
      exact parseGo_values rest p1 m h1 hfold

/-- C10: a section line `key=value` whose value itself contains `=` is
stored with only the substring between the first and the second `=` of the
line as the field value (everything after the second `=` is discarded);
consequently no field value in any successful parse result contains `=`. -/
theorem parse_value_between_eqs :
    (∀ (d : PyDict (List Char) (List Char)) (k v rest : List Char), '=' ∉ k → '=' ∉ v →
        addLine d (k ++ '=' :: (v ++ '=' :: rest)) =
          some (pyInsert d (pyRemovePre imgPre k) v)) ∧
    (∀ (text : List Char) (m : Sections), parse_ota_update_in text = some m →
        ∀ td ∈ m, ∀ kv ∈ td.2, '=' ∉ kv.2) := by
  constructor
  · intro d k v rest hk hv
    rw [addLine, splitOn_push _ _ _ hk, splitOn_push _ _ _ hv]
  · intro text m hparse
    rw [parse_ota_update_in] at hparse
    exact parseGo_values _ [] m (fun td htd => absurd htd (List.not_mem_nil td)) hparse

/-- Witness for `parse_value_between_eqs`: the line `img_md5=a=b` stores
value `a`, and the Scenario C parse result has no `=` in any value. -/
theorem parse_value_between_eqs_witness :
    addLine [] (("img_md5".data) ++ '=' :: (("a".data) ++ '=' :: ("b".data))) =
      some (pyInsert [] (pyRemovePre imgPre ("img_md5".data)) ("a".data)) :=
  parse_value_between_eqs.1 [] ("img_md5".data) ("a".data) ("b".data)
    (by decide) (by decide)

theorem flat_dropLast_intercalate :
    ∀ (parts : List (List Char)), parts ≠ [] →
      ((parts.dropLast.map (fun p => p ++ ['\n'])).flatten) ++ parts.getLastD [] =
        List.intercalate ['\n'] parts
  | [p], _ => by simp [List.intercalate]
  | p :: q :: r, _ => by
    have ih := flat_dropLast_intercalate (q :: r) (by simp)
    have hlast : (p :: q :: r).getLastD [] = (q :: r).getLastD [] := by
      simp [List.getLastD_cons]
    rw [List.dropLast_cons₂, List.map_cons, List.flatten_cons, List.append_assoc,
      hlast, ih]
    rw [List.intercalate, List.intercalate, List.intersperse_cons₂,
      List.flatten_cons, List.flatten_cons, List.append_assoc]

theorem linesKeep_flatten (s : List Char) : (linesKeep s).flatten = s := by
  rw [linesKeep]
  have hne : s.splitOn '\n' ≠ [] := by
    rw [List.splitOn]
    exact List.splitOnP_ne_nil _ s
  have key := flat_dropLast_intercalate (s.splitOn '\n') hne
  rw [List.intercalate_splitOn] at key
  by_cases h : (s.splitOn '\n').getLastD [] = []
  · rw [if_pos h]
    rw [h, List.append_nil] at key
    simpa using key
  · rw [if_neg h]
    rw [List.flatten_append]
    simpa using key

theorem mapM_congr_some (f : List Char → Option (List Char))
    (g : List Char → List Char) (l : List (List Char))
    (h : ∀ x ∈ l, f x = some (g x)) : l.mapM f = some (l.map g) := by
  induction l with
  | nil => rfl
  | cons x xs ih =>
    simp only [List.mapM_cons, List.map_cons, h x (List.mem_cons_self x xs),
      ih (fun y hy => h y (List.mem_cons_of_mem x hy)), Option.bind_eq_bind,
      Option.some_bind]
    rfl

/-- C7 (amended): on a shadow file in which no line starts with `root`,
`__set_password` does not fail — it rewrites the file byte-for-byte
unchanged.  The loop simply never takes the matching branch, so no error
of any kind is raised and the new hash is silently dropped. -/
theorem set_password_no_root (pwh content : List Char)
    (h : ∀ l ∈ linesKeep content, rootPre.isPrefixOf l = false) :
    set_password pwh content = some content := by
  rw [set_password,
    mapM_congr_some (passwordLine pwh) id (linesKeep content)
      (fun l hl => by simp [passwordLine, h l hl])]
  show some ((List.map id (linesKeep content)).flatten) = some content
  rw [List.map_id, linesKeep_flatten]

/-- Witness for `set_password_no_root` at a one-line shadow file whose only
line starts with `daemon`. -/
theorem set_password_no_root_witness :
    (∀ l ∈ linesKeep ("daemon:x:1::\n".data), rootPre.isPrefixOf l = false) ∧
      set_password ("newhash".data) ("daemon:x:1::\n".data) =
        some ("daemon:x:1::\n".data) :=
  ⟨by decide, set_password_no_root ("newhash".data) ("daemon:x:1::\n".data) (by decide)⟩

/-- C7 counterexample: a shadow file with no `root` line at all — here the
single line `daemon:x:1::` — makes `__set_password` return the content
unchanged instead of failing with a hard error: the credential-injection
step completes silently without installing the new password hash. -/
theorem set_password_no_root_silent :
    set_password ("newhash".data) ("daemon:x:1::\n".data) =
      some ("daemon:x:1::\n".data) := by
  decide

/-- C6 (amended): `__set_password` rewrites every line that *starts with*
the four characters `root` (Python `line.startswith("root")`), replacing
field 1 of its `':'`-split with the supplied hash, and leaves every other
line verbatim.  Provided the hash is colon-free, the rewritten line's
colon-split equals the original split with only index 1 replaced, so every
field other than the second is unchanged and field order is preserved. -/
theorem set_password_prefix_replace (pwh content : List Char)
    (hw : ∀ l ∈ linesKeep content, rootPre.isPrefixOf l = true →
      2 ≤ (l.splitOn ':').length)
    (hp : ':' ∉ pwh) :
    set_password pwh content =
      some (((linesKeep content).map (pwTransform pwh)).flatten) ∧
    ∀ l ∈ linesKeep content,
      (rootPre.isPrefixOf l = false → pwTransform pwh l = l) ∧
      (rootPre.isPrefixOf l = true →
        (pwTransform pwh l).splitOn ':' = (l.splitOn ':').set 1 pwh ∧
        ∀ i, i ≠ 1 →
          ((pwTransform pwh l).splitOn ':')[i]? = (l.splitOn ':')[i]?) := by
  constructor
  · rw [set_password,
      mapM_congr_some (passwordLine pwh) (pwTransform pwh) (linesKeep content)
        (fun l hl => by
          by_cases hr : rootPre.isPrefixOf l = true
          · simp only [passwordLine, pwTransform, if_pos hr, if_pos (hw l hl hr)]
          · simp only [passwordLine, pwTransform, if_neg hr])]
    rfl
  · intro l hl
    constructor
    · intro hr
      simp [pwTransform, hr]
    · intro hr
      have h2 := hw l hl hr
      have hne : (l.splitOn ':').set 1 pwh ≠ [] := by
        intro h0
        have := congrArg List.length h0
        simp only [List.length_set, List.length_nil] at this
        omega
      have hsep : ∀ p ∈ (l.splitOn ':').set 1 pwh, ':' ∉ p := by
        intro p hp0
        rcases List.mem_or_eq_of_mem_set hp0 with hmem | rfl
        · exact splitOn_sep_not_mem ':' l p hmem
        · exact hp
      have hsplit : (pwTransform pwh l).splitOn ':' = (l.splitOn ':').set 1 pwh := by
        rw [pwTransform, if_pos hr]
        exact List.splitOn_intercalate _ ':' hsep hne
      refine ⟨hsplit, fun i hi => ?_⟩
      rw [hsplit]
      exact List.getElem?_set_ne (Ne.symm hi)

/-- Witness for `set_password_prefix_replace` at the two-line shadow file
`shadowW` and hash `pwhW`. -/
theorem set_password_prefix_replace_witness :
    (∀ l ∈ linesKeep shadowW, rootPre.isPrefixOf l = true →
      2 ≤ (l.splitOn ':').length) ∧
    ':' ∉ pwhW ∧
    set_password pwhW shadowW =
      some (((linesKeep shadowW).map (pwTransform pwhW)).flatten) :=
  ⟨by decide, by decide,
    (set_password_prefix_replace pwhW shadowW (by decide) (by decide)).1⟩

/-- C6 counterexample: the line `rootly:y:2::` has first colon field
`rootly`, not `root`, yet `__set_password` rewrites its second field too,
because the code matches `line.startswith("root")` rather than comparing
the first colon-delimited field: a non-`root` line is not left
byte-for-byte unchanged. -/
theorem set_password_touches_rootly :
    set_password ("NEW".data) ("root:x:1::\nrootly:y:2::\n".data) =
      some ("root:NEW:1::\nrootly:NEW:2::\n".data) ∧
    ("rootly:y:2::\n".data) ∈ linesKeep ("root:x:1::\nrootly:y:2::\n".data) ∧
    ((("rootly:y:2::\n".data).splitOn ':').headD []) ≠ ("root".data) := by
  refine ⟨by decide, by decide, by decide⟩

/-- C5 (amended): `__assemble_rootfs` performs no validation of the chunk
set.  With zero matching chunk files it writes an empty image; with a gap
in the index sequence (`dirGap`) it silently concatenates the present
chunks into a truncated image; with a duplicate index (`dirDup`) it
concatenates both files for that index in filename order.  No condition is
reported as an error. -/
theorem assemble_no_validation :
    assembleChunks [] = [] ∧ assembleChunks dirGap = [1, 3] ∧
      assembleChunks dirDup = [1, 2] := by
  refine ⟨?_, ?_, ?_⟩
  · simp [assembleChunks]
  · rw [assembleChunks,
      show dirGap.filter (fun f => globMatches f.1) = dirGap from rfl,
      List.mergeSort_of_sorted (by decide :
        List.Pairwise (fun a b : List Char × List Nat => nameLe a.1 b.1 = true) dirGap)]
    rfl
  · rw [assembleChunks,
      show dirDup.filter (fun f => globMatches f.1) = dirDup from rfl,
      List.mergeSort_of_sorted (by decide :
        List.Pairwise (fun a b : List Char × List Nat => nameLe a.1 b.1 = true) dirDup)]
    rfl

/-- C5 counterexample: a chunk directory missing index `0001` (only `0000`
and `0002` are present) assembles to the silent concatenation of the two
present chunks — a truncated image — instead of any reported error; the
assembler has no error path at all. -/
theorem assemble_gap_silent :
    assembleChunks dirGap = [1, 3] := by
  rw [assembleChunks,
    show dirGap.filter (fun f => globMatches f.1) = dirGap from rfl,
    List.mergeSort_of_sorted (by decide :
      List.Pairwise (fun a b : List Char × List Nat => nameLe a.1 b.1 = true) dirGap)]
  rfl
